import Mathlib

/-!
# Verification of the workflow-go engine core

A shallow embedding, in Lean 4, of the parts of the workflow-go repository
(package gorkflow / workflow, with its engine, builder and in-memory store
packages) that the verified properties talk about:

* the retry/backoff delay computation (helpers.go CalculateBackoff,
  engine backoff.go calculateBackoff);
* the engine step runner with its retry loop (engine executeStep);
* the workflow execution loop with its progress accounting
  (engine executeWorkflow / completeWorkflow / failWorkflow /
  cancelWorkflow / Cancel);
* the conditional step wrappers (step.go ConditionalStep.Execute and
  conditionalStepWrapper.Execute);
* the per-run state accessor (stateAccessor.Set / Get);
* the in-memory persistence backend (store MemoryStore);
* the execution graph with validation and topological ordering
  (graph.go ExecutionGraph) and the builder Build success condition.

Conventions used throughout the embedding:

* Go byte slices are `List Nat`; the engine never interprets them.
* Go string-typed enumerations (RunStatus, StepStatus, NodeType, error
  codes, backoff strategies) are plain `String`s, exactly as in the
  source where these are string type aliases compared with `==`.
* Wall-clock fields (CreatedAt, StartedAt, CompletedAt, UpdatedAt,
  Timestamp) are omitted from the records: no verified property depends
  on them, and they come from `time.Now()`.
* 64-bit signed arithmetic (`time.Duration`, `int` on the 64-bit
  platforms this repository targets) wraps modulo 2^64; the wrap is
  explicit through `w64` where a computation can leave the 64-bit range.
* Fallible Go functions returning `(T, error)` become `Except String T`
  or a pair with an `Option String` error component.
-/

namespace Gorkflow

/-- Go byte slices (`[]byte`, `json.RawMessage`). -/
abbrev Bytes := List Nat

/-! ## Status enumerations and error codes (models.go, part_005) -/

def RunStatusPending : String := "PENDING"
def RunStatusRunning : String := "RUNNING"
def RunStatusCompleted : String := "COMPLETED"
def RunStatusFailed : String := "FAILED"
def RunStatusCancelled : String := "CANCELLED"

/-- models.go RunStatus.IsTerminal. -/
def runStatusIsTerminal (s : String) : Bool :=
  s == RunStatusCompleted || s == RunStatusFailed || s == RunStatusCancelled

def StepStatusPending : String := "PENDING"
def StepStatusRunning : String := "RUNNING"
def StepStatusCompleted : String := "COMPLETED"
def StepStatusFailed : String := "FAILED"
def StepStatusSkipped : String := "SKIPPED"
def StepStatusRetrying : String := "RETRYING"

/-- models.go StepStatus.IsTerminal. -/
def stepStatusIsTerminal (s : String) : Bool :=
  s == StepStatusCompleted || s == StepStatusFailed || s == StepStatusSkipped

def ErrCodeValidation : String := "VALIDATION_ERROR"
def ErrCodeNotFound : String := "NOT_FOUND"
def ErrCodeTimeout : String := "TIMEOUT"
def ErrCodeConcurrency : String := "CONCURRENCY_LIMIT"
def ErrCodeExecutionFailed : String := "EXECUTION_FAILED"
def ErrCodeCancelled : String := "CANCELLED"
def ErrCodePanic : String := "PANIC"
def ErrCodeInternalError : String := "INTERNAL_ERROR"

def BackoffLinear : String := "LINEAR"
def BackoffExponential : String := "EXPONENTIAL"
def BackoffNone : String := "NONE"

/-! ## Backoff delay computation (helpers.go CalculateBackoff)

The Go function computes over `time.Duration` (an `int64` nanosecond
count) and `int` (64 bits on the repository's target platforms), both of
which wrap on overflow. Go shift semantics: `1 << n` behaves as `n`
successive doublings of a 64-bit word, i.e. `2 ^ n` reduced to the
64-bit two's-complement range. -/

/-- Two's-complement reduction of an unbounded integer into the `int64`
range `[-2^63, 2^63)`, the semantics of Go 64-bit arithmetic. -/
def w64 (x : Int) : Int := (x + 2 ^ 63) % 2 ^ 64 - 2 ^ 63

/-- helpers.go CalculateBackoff. `baseDelayMs` and `attempt` are Go
`int`s; the result is the `time.Duration` in nanoseconds. For negative
`attempt` the Go original panics on the negative shift count (outside
every verified property, which all assume `attempt ≥ 0`); the model is
only quoted with `attempt ≥ 0`.
`baseDelay := time.Duration(baseDelayMs) * time.Millisecond` is the
millisecond count scaled by 10^6 in wrapping int64 arithmetic.  -/
def CalculateBackoff (baseDelayMs attempt : Int) (strategy : String) : Int :=
  if attempt == 0 then 0
  else
    let baseDelay := w64 (baseDelayMs * 1000000)
    if strategy == "EXPONENTIAL" then
      let multiplier := w64 (2 ^ (attempt - 1).toNat)
      w64 (baseDelay * multiplier)
    else if strategy == "LINEAR" then
      w64 (baseDelay * attempt)
    else if strategy == "NONE" then 0
    else
      w64 (baseDelay * attempt)

/-- engine backoff.go calculateBackoff: a direct wrapper around
CalculateBackoff. -/
def calculateBackoff (baseDelayMs attempt : Int) (strategy : String) : Int :=
  CalculateBackoff baseDelayMs attempt strategy

/-! ## Execution configuration (options.go ExecutionConfig)

MaxRetries is a Go `int`; it is modelled as `Nat` because every verified
property assumes `max_retries ≥ 0` (a negative MaxRetries makes the Go
retry loop run zero times and then dereference a nil `lastErr`, outside
the scope of every claim). -/

structure ExecutionConfig where
  MaxRetries : Nat
  RetryDelayMs : Int
  RetryBackoff : String
  TimeoutSeconds : Int
  MaxConcurrency : Int
  ContinueOnError : Bool
  FallbackStepID : Option String

/-- options.go DefaultExecutionConfig. -/
def DefaultExecutionConfig : ExecutionConfig :=
  { MaxRetries := 3, RetryDelayMs := 1000, RetryBackoff := BackoffLinear,
    TimeoutSeconds := 30, MaxConcurrency := 1, ContinueOnError := false,
    FallbackStepID := none }

/-! ## Step execution records (models.go, part_005 StepError) -/

/-- part_005 StepError (Timestamp omitted: wall clock). -/
structure StepError where
  Message : String
  Code : String
  Attempt : Nat
deriving DecidableEq

/-- models.go StepExecution (timestamps omitted: wall clock). -/
structure StepExecution where
  RunID : String
  StepID : String
  ExecutionIndex : Int
  Status : String
  DurationMs : Int
  Input : Bytes
  Output : Option Bytes
  Error : Option StepError
  Attempt : Nat
deriving DecidableEq

/-- engine StepExecutionResult (engine_integration_test.go part). `Error`
is modelled by the message of the Go error value (`none` = nil). -/
structure StepExecutionResult where
  StepID : String
  Output : Option Bytes
  ErrorMsg : Option String
  DurationMs : Int
  AttemptsMade : Nat
deriving DecidableEq

/-! ## The engine step runner (engine executeStep)

The step runner is driven by the outside world at three points per
attempt: the outcome of `step.Execute` (success bytes or an error), the
state of the per-attempt timeout context after the call
(`execCtx.Err() == context.DeadlineExceeded`), and the wall-clock
duration. `AttemptBehavior` packages those inputs per attempt index.
`parentCancelled` records whether the parent context passed to
executeStep is cancelled during the attempt: the Go code never reads the
parent context inside the retry loop, and accordingly the model ignores
this field — that very fact is one of the verified properties. -/

inductive ExecOutcome where
  | success (out : Bytes)
  | failure (msg : String)
deriving DecidableEq

structure AttemptBehavior where
  outcome : Nat → ExecOutcome
  deadlineExceeded : Nat → Bool
  parentCancelled : Nat → Bool
  durationMs : Nat → Int

/-- The error-message wrap applied by executeStep when the per-attempt
context deadline expired (`lastErr = fmt.Errorf("step timed out after %d
seconds: %w", ...)`). -/
def wrapTimeout (cfg : ExecutionConfig) (beh : AttemptBehavior) (attempt : Nat)
    (msg : String) : String :=
  if beh.deadlineExceeded attempt then
    "step timed out after " ++ toString cfg.TimeoutSeconds ++ " seconds: " ++ msg
  else msg

/-- Everything observable about one executeStep call: the returned
StepExecutionResult, the returned Go error (`none` = nil), the sequence
of step-execution records handed to CreateStepExecution /
UpdateStepExecution in order, the final value of the record (the last
one persisted), the bytes given to SaveStepOutput (if any), the backoff
delays computed, and the number of `step.Execute` invocations. -/
structure ExecuteStepOutcome where
  result : StepExecutionResult
  errMsg : Option String
  persisted : List StepExecution
  finalExec : StepExecution
  savedOutput : Option Bytes
  delays : List Int
  calls : Nat

/-- The retry loop of engine executeStep
(`for attempt := 0; attempt <= config.MaxRetries; attempt++`).
`remaining` is the structural fuel `cfg.MaxRetries - attempt`, so the Go
guard `attempt < config.MaxRetries` for running another iteration is
`remaining > 0`; executeStep starts the loop with
`remaining = cfg.MaxRetries`, `attempt = 0`. Persistence calls are
modelled as always succeeding (the Go code merely logs failures of the
in-loop UpdateStepExecution calls and continues). -/
def executeStepLoop (cfg : ExecutionConfig) (beh : AttemptBehavior) (stepID : String) :
    Nat → Nat → StepExecution → List StepExecution → List Int → Nat → ExecuteStepOutcome
  | remaining, attempt, exec, persisted, delays, calls =>
    let persisted := if attempt > 0 then
        persisted ++ [{ exec with Status := StepStatusRetrying, Attempt := attempt }]
      else persisted
    let delays := if attempt > 0 then
        delays ++ [calculateBackoff cfg.RetryDelayMs attempt cfg.RetryBackoff]
      else delays
    let exec := { exec with Status := StepStatusRunning, Attempt := attempt }
    let persisted := persisted ++ [exec]
    let calls := calls + 1
    match beh.outcome attempt with
    | ExecOutcome.success out =>
      let exec := { exec with
                    Status := StepStatusCompleted,
                    Output := some out,
                    DurationMs := beh.durationMs attempt }
      { result := { StepID := stepID, Output := some out, ErrorMsg := none,
                    DurationMs := beh.durationMs attempt, AttemptsMade := attempt + 1 },
        errMsg := none, persisted := persisted ++ [exec], finalExec := exec,
        savedOutput := some out, delays := delays, calls := calls }
    | ExecOutcome.failure msg =>
      let lastErr := wrapTimeout cfg beh attempt msg
      let exec := { exec with DurationMs := beh.durationMs attempt }
      match remaining with
      | r + 1 => executeStepLoop cfg beh stepID r (attempt + 1) exec persisted delays calls
      | 0 =>
        let exec := { exec with
                      Status := StepStatusFailed,
                      Error := some { Message := lastErr,
                                      Code := ErrCodeExecutionFailed,
                                      Attempt := cfg.MaxRetries } }
        { result := { StepID := stepID, Output := none, ErrorMsg := some lastErr,
                      DurationMs := exec.DurationMs, AttemptsMade := attempt + 1 },
          errMsg := some ("step " ++ stepID ++ " failed after " ++ toString (attempt + 1)
                          ++ " attempts: " ++ lastErr),
          persisted := persisted ++ [exec], finalExec := exec,
          savedOutput := none, delays := delays, calls := calls }

/-- engine executeStep: creates the pending step-execution record,
persists it via CreateStepExecution (assumed to succeed; on failure the
Go code returns before any attempt), and runs the retry loop. -/
def executeStep (cfg : ExecutionConfig) (beh : AttemptBehavior)
    (runID stepID : String) (inputBytes : Bytes) : ExecuteStepOutcome :=
  let exec0 : StepExecution :=
    { RunID := runID, StepID := stepID, ExecutionIndex := 0,
      Status := StepStatusPending, DurationMs := 0, Input := inputBytes,
      Output := none, Error := none, Attempt := 0 }
  executeStepLoop cfg beh stepID cfg.MaxRetries 0 exec0 [exec0] [] 0

/-! ## The run loop and progress accounting (part_003 executeWorkflow)

part_003 executeWorkflow walks the topological order one step at a
time: check the cancellation signal, run executeStep, on failure either
fail the run (failWorkflow; progress unchanged) or — with
ContinueOnError — keep going; then increment completedSteps, set
`progress = completedSteps / totalSteps` and persist the run; on normal
loop exit completeWorkflow sets status COMPLETED with progress 1.0.

The model records the run fields relevant to the progress invariant at
every point where a run record is persisted (CreateRun / UpdateRun),
together with the final statuses of the step-execution records persisted
so far (executeStep persists the terminal record of a step before the
run loop continues). Go's float64 progress is modelled with exact
rationals: for the list lengths involved, `float64(c)/float64(t)` is the
correctly rounded rational `c/t`, the rounding is monotone, and it
equals 1.0 exactly iff `c = t`. -/

/-- What the run loop observes about one step of the topological order:
its identifier, whether executeStep returns success for it, and its
ContinueOnError configuration. -/
structure StepSpec where
  id : String
  succeeds : Bool
  continueOnError : Bool
deriving DecidableEq

/-- A persisted run snapshot: status and progress at an UpdateRun (or the
initial CreateRun), plus the statuses of the step-execution records
already persisted at that moment. -/
structure RunObs where
  status : String
  progress : Rat
  stepStatuses : List (String × String)
deriving DecidableEq

/-- Number of entries of a (stepID, status) list whose status satisfies
`p`. -/
def countWhere (p : String → Bool) (l : List (String × String)) : Nat :=
  (l.filter (fun kv => p kv.2)).length

/-- The per-step loop of executeWorkflow. `total` is `len(executionOrder)`,
`i` the number of steps already processed (`completedSteps`), `prog` the
run's current persisted progress, `stat` the persisted step-execution
statuses so far, and `cancelAt i` the state of the cancellation signal
at the top of iteration `i`. Produces the run observations persisted
from here on. -/
def executeWorkflowLoop (total : Nat) (cancelAt : Nat → Bool) :
    List StepSpec → Nat → Rat → List (String × String) → List RunObs
  | [], _, _, stat => [⟨RunStatusCompleted, 1, stat⟩]
  | sp :: rest, i, prog, stat =>
    if cancelAt i then [⟨RunStatusCancelled, prog, stat⟩]
    else
      let stepStatus := if sp.succeeds then StepStatusCompleted else StepStatusFailed
      let stat2 := stat ++ [(sp.id, stepStatus)]
      if sp.succeeds || sp.continueOnError then
        let prog2 := ((i : Rat) + 1) / (total : Rat)
        ⟨RunStatusRunning, prog2, stat2⟩ ::
          executeWorkflowLoop total cancelAt rest (i + 1) prog2 stat2
      else
        [⟨RunStatusFailed, prog, stat2⟩]

/-- The run observations of a whole run: CreateRun persists the PENDING
record with progress 0 (StartWorkflow), executeWorkflow updates it to
RUNNING, then drives the loop over the topological order. -/
def executeWorkflowObs (steps : List StepSpec) (cancelAt : Nat → Bool) : List RunObs :=
  ⟨RunStatusPending, 0, []⟩ ::
  ⟨RunStatusRunning, 0, []⟩ ::
  executeWorkflowLoop steps.length cancelAt steps 0 0 []

/-! ## Conditional steps (step.go)

Both wrappers first evaluate the gate predicate (Go:
`shouldRun, err := Condition(ctx)`; here the outcome is the `cond`
argument), fail the step on a predicate error, marshal the default (or
the zero value of the declared output type) when the predicate is false,
and delegate to the wrapped step only when it is true. `marshal` stands
for json.Marshal on output-type values (it returns bytes or an error,
passed through unchanged by the Go code). The Bool component of the
result records whether the wrapped step's Execute was invoked. -/

/-- step.go ConditionalStep.Execute. `dflt` is `cs.Default : *TOut`
(`none` = nil), `zero` the zero value of TOut. -/
def ConditionalStepExecute {α : Type} (cond : Except String Bool)
    (dflt : Option α) (marshal : α → Except String Bytes) (zero : α)
    (wrappedExecute : Bytes → Except String Bytes) (inputBytes : Bytes) :
    Except String Bytes × Bool :=
  match cond with
  | Except.error e => (Except.error ("condition evaluation failed: " ++ e), false)
  | Except.ok false =>
    match dflt with
    | some d => (marshal d, false)
    | none => (marshal zero, false)
  | Except.ok true => (wrappedExecute inputBytes, true)

/-- step.go conditionalStepWrapper.Execute (the type-erased builder
variant): `defaultValue` is `w.defaultValue : any` (`none` = nil);
`zeroOfOutputType` is `reflect.Zero(w.step.OutputType()).Interface()`. -/
def conditionalStepWrapperExecute {α : Type} (cond : Except String Bool)
    (defaultValue : Option α) (marshal : α → Except String Bytes)
    (zeroOfOutputType : α)
    (wrappedExecute : Bytes → Except String Bytes) (inputBytes : Bytes) :
    Except String Bytes × Bool :=
  match cond with
  | Except.error e => (Except.error ("condition evaluation failed: " ++ e), false)
  | Except.ok false =>
    match defaultValue with
    | some d => (marshal d, false)
    | none => (marshal zeroOfOutputType, false)
  | Except.ok true => (wrappedExecute inputBytes, true)

/-! ## Run records and the in-memory store (models.go, part_014)

Mutating store operations return the Go error (`Except String Unit`)
together with the store after the call, so that "no write happened" is
expressible. Go map fields are association lists; `mapInsert` is the Go
map assignment `m[k] = v`. Trigger, Tags and Context metadata and the
wall-clock fields of WorkflowRun are omitted: no claim depends on
them. -/

/-- part_005 WorkflowError (Timestamp/Details omitted). -/
structure WorkflowError where
  Message : String
  Code : String
  Step : String
deriving DecidableEq

/-- models.go WorkflowRun (metadata and wall-clock fields omitted). -/
structure WorkflowRun where
  RunID : String
  WorkflowID : String
  WorkflowVersion : String
  Status : String
  Progress : Rat
  Input : Bytes
  Output : Option Bytes
  Error : Option WorkflowError
  ResourceID : String
  TTL : Int
deriving DecidableEq

/-- Go map assignment `m[k] = v` on an association list. -/
def mapInsert {α : Type} (k : String) (v : α) : List (String × α) → List (String × α)
  | [] => [(k, v)]
  | (k2, v2) :: rest => if k = k2 then (k, v) :: rest else (k2, v2) :: mapInsert k v rest

/-- part_014 MemoryStore. -/
structure MemoryStore where
  runs : List (String × WorkflowRun)
  stepExecutions : List (String × List (String × StepExecution))
  stepOutputs : List (String × List (String × Bytes))
  state : List (String × List (String × Bytes))
deriving DecidableEq

/-- part_014 MemoryStore.CreateRun: fails (store untouched) when a run
with the same RunID exists; otherwise stores the run and initialises the
per-run maps. -/
def MemoryStore.CreateRun (s : MemoryStore) (run : WorkflowRun) :
    Except String Unit × MemoryStore :=
  match s.runs.lookup run.RunID with
  | some _ => (Except.error ("workflow run " ++ run.RunID ++ " already exists"), s)
  | none =>
    (Except.ok (),
     { s with
       runs := mapInsert run.RunID run s.runs,
       stepExecutions := mapInsert run.RunID [] s.stepExecutions,
       stepOutputs := mapInsert run.RunID [] s.stepOutputs,
       state := mapInsert run.RunID [] s.state })

/-- part_014 MemoryStore.GetRun (read-only; Go returns a deep copy). -/
def MemoryStore.GetRun (s : MemoryStore) (runID : String) :
    Except String WorkflowRun :=
  match s.runs.lookup runID with
  | some run => Except.ok run
  | none => Except.error ("workflow run " ++ runID ++ " not found")

/-- part_014 MemoryStore.UpdateRun: overwrites, fails if missing. -/
def MemoryStore.UpdateRun (s : MemoryStore) (run : WorkflowRun) :
    Except String Unit × MemoryStore :=
  match s.runs.lookup run.RunID with
  | some _ => (Except.ok (), { s with runs := mapInsert run.RunID run s.runs })
  | none => (Except.error ("workflow run " ++ run.RunID ++ " not found"), s)

/-- part_014 MemoryStore.CreateStepExecution: makes sure the per-run map
exists, then assigns `stepExecutions[runID][stepID] = exec`
unconditionally — it never fails and silently overwrites. -/
def MemoryStore.CreateStepExecution (s : MemoryStore) (exec : StepExecution) :
    Except String Unit × MemoryStore :=
  let runExecs := (s.stepExecutions.lookup exec.RunID).getD []
  (Except.ok (),
   { s with stepExecutions :=
       mapInsert exec.RunID (mapInsert exec.StepID exec runExecs) s.stepExecutions })

/-- part_014 MemoryStore.GetStepExecution. -/
def MemoryStore.GetStepExecution (s : MemoryStore) (runID stepID : String) :
    Except String StepExecution :=
  match s.stepExecutions.lookup runID with
  | none => Except.error ("no step executions for run " ++ runID)
  | some runExecs =>
    match runExecs.lookup stepID with
    | some exec => Except.ok exec
    | none => Except.error ("step execution " ++ runID ++ "/" ++ stepID ++ " not found")

/-! ## Engine cancellation (part_003 Cancel / cancelWorkflow) -/

/-- part_003 Engine.cancelWorkflow: sets status CANCELLED (CompletedAt /
UpdatedAt omitted: wall clock) and persists via UpdateRun. -/
def Engine.cancelWorkflow (s : MemoryStore) (run : WorkflowRun) :
    Except String Unit × MemoryStore :=
  let run2 := { run with Status := RunStatusCancelled }
  match s.UpdateRun run2 with
  | (Except.ok _, s2) => (Except.ok (), s2)
  | (Except.error e, s2) =>
    (Except.error ("failed to update run on cancellation: " ++ e), s2)

/-- part_003 Engine.Cancel: read the run, reject terminal runs, otherwise
cancel. -/
def Engine.Cancel (s : MemoryStore) (runID : String) :
    Except String Unit × MemoryStore :=
  match s.GetRun runID with
  | Except.error e => (Except.error ("failed to get run: " ++ e), s)
  | Except.ok run =>
    if runStatusIsTerminal run.Status then
      (Except.error ("cannot cancel workflow in " ++ run.Status ++ " state"), s)
    else
      Engine.cancelWorkflow s run

/-! ## State accessor (part_001 stateAccessor)

The accessor's backend is the WorkflowStore interface, whose SaveState /
LoadState may fail (e.g. the DynamoDB backend); the backend call
outcomes are inputs of the model. `marshalled` stands for the
json.Marshal result of the value being set (on a marshal error the Go
code returns before touching the cache; the claim's scenario has
marshalling succeed). Get returns the bytes Go would unmarshal into the
caller's target. -/

structure stateAccessor where
  runID : String
  cache : List (String × Bytes)
deriving DecidableEq

/-- part_001 stateAccessor.Set: marshal, update the cache, then persist
through the backend; a backend failure is returned AFTER the cache was
already updated. -/
def stateAccessor.Set (a : stateAccessor) (key : String) (marshalled : Bytes)
    (saveResult : Except String Unit) : Except String Unit × stateAccessor :=
  let a2 := { a with cache := mapInsert key marshalled a.cache }
  match saveResult with
  | Except.ok _ => (Except.ok (), a2)
  | Except.error e =>
    (Except.error ("failed to save state for key " ++ key ++ ": " ++ e), a2)

/-- part_001 stateAccessor.Get: cache first; only on a cache miss read
the backend (`loadResult`), cache the bytes and return them. -/
def stateAccessor.Get (a : stateAccessor) (key : String)
    (loadResult : Except String Bytes) : Except String Bytes × stateAccessor :=
  match a.cache.lookup key with
  | some data => (Except.ok data, a)
  | none =>
    match loadResult with
    | Except.error e =>
      (Except.error ("failed to load state for key " ++ key ++ ": " ++ e), a)
    | Except.ok data =>
      (Except.ok data, { a with cache := mapInsert key data a.cache })

/-! ## The execution graph (graph.go)

`map[string]*GraphNode` is an association list with pairwise-distinct
keys (every Go map has distinct keys). The map iteration order of the
cycle sweep in Validate is modelled by list order; the sweep's outcome
does not depend on the order the roots are tried in. The recursive DFS
helpers carry explicit fuel; `g.Nodes.length` always suffices, because
each DFS level descends only into a node not yet in `visited` and marks
it, so the recursion depth is bounded by the number of nodes. An
exhausted-fuel cycle check conservatively reports a cycle (making
Validate fail rather than silently succeed), and exhausted-fuel
reachability/ordering walks stop (which only ever loses nodes, again
failing Validate's completeness check rather than inventing results). -/

/-- graph.go GraphNode. The Conditions field (a slice of functions,
deliberately not even cloned by Clone) is omitted: no algorithm reads
it. -/
structure GraphNode where
  StepID : String
  NType : String
  Next : List String
deriving DecidableEq

/-- graph.go ExecutionGraph. -/
structure ExecutionGraph where
  EntryPoint : String
  Nodes : List (String × GraphNode)
deriving DecidableEq

/-- The node identifiers (the keys of the Nodes map). -/
def ExecutionGraph.keys (g : ExecutionGraph) : List String := g.Nodes.map Prod.fst

/-- Successor list of a node (`g.Nodes[nodeID].Next`). For an id missing
from the map the Go code would dereference a nil pointer; on well-formed
graphs (the only ones quoted) the case never arises, and the model
returns []. -/
def ExecutionGraph.succs (g : ExecutionGraph) (u : String) : List String :=
  match g.Nodes.lookup u with
  | some n => n.Next
  | none => []

/-- graph.go AddNode: idempotent insertion; the first node added becomes
the entry point. -/
def ExecutionGraph.AddNode (g : ExecutionGraph) (stepID ntype : String) :
    ExecutionGraph :=
  let g2 := match g.Nodes.lookup stepID with
    | some _ => g
    | none => { g with Nodes := g.Nodes
        ++ [(stepID, { StepID := stepID, NType := ntype, Next := [] })] }
  if g2.EntryPoint = "" then { g2 with EntryPoint := stepID } else g2

/-- graph.go AddEdge: both endpoints must exist; appends `toID` to the
source's successor list. -/
def ExecutionGraph.AddEdge (g : ExecutionGraph) (fromID toID : String) :
    Except String ExecutionGraph :=
  match g.Nodes.lookup fromID with
  | none => Except.error ("source node " ++ fromID ++ " not found")
  | some fromNode =>
    match g.Nodes.lookup toID with
    | none => Except.error ("target node " ++ toID ++ " not found")
    | some _ =>
      Except.ok { g with
        Nodes := mapInsert fromID { fromNode with Next := fromNode.Next ++ [toID] }
          g.Nodes }

/-- graph.go SetEntryPoint. -/
def ExecutionGraph.SetEntryPoint (g : ExecutionGraph) (stepID : String) :
    Except String ExecutionGraph :=
  match g.Nodes.lookup stepID with
  | none => Except.error ("step " ++ stepID ++ " not found in graph")
  | some _ => Except.ok { g with EntryPoint := stepID }

/-- graph.go hasCycle, worklist form. One call level processes the
successor list of one node: `visited` nodes are skipped unless they are
on the recursion stack (`grey`), which reports a cycle; unvisited nodes
are marked and descended into with themselves pushed onto the recursion
stack (popped implicitly on return, as hasCycle sets
`recStack[nodeID] = false` before returning false). Returns the cycle
flag and the visited set. -/
def ExecutionGraph.hasCycleDFS (g : ExecutionGraph) :
    Nat → List String → List String → List String → Bool × List String
  | _, [], vis, _ => (false, vis)
  | fuel, v :: rest, vis, grey =>
    if v ∈ vis then
      if v ∈ grey then (true, vis)
      else g.hasCycleDFS fuel rest vis grey
    else
      match fuel with
      | 0 => (true, vis)
      | f + 1 =>
        match g.hasCycleDFS f (g.succs v) (v :: vis) (v :: grey) with
        | (true, vis2) => (true, vis2)
        | (false, vis2) => g.hasCycleDFS (f + 1) rest vis2 grey
  termination_by fuel ws _ _ => (fuel, ws.length)

/-- The `for nodeID := range g.Nodes` cycle sweep of graph.go Validate:
roots are tried in turn against a shared visited set. -/
def ExecutionGraph.cycleSweep (g : ExecutionGraph) :
    List String → List String → Bool
  | [], _ => false
  | k :: rest, vis =>
    match g.hasCycleDFS g.Nodes.length [k] vis [] with
    | (true, _) => true
    | (false, vis2) => g.cycleSweep rest vis2

/-- graph.go dfsReachable, worklist form: mark, then recurse into
unmarked successors. -/
def ExecutionGraph.reachDFS (g : ExecutionGraph) :
    Nat → List String → List String → List String
  | _, [], acc => acc
  | fuel, v :: rest, acc =>
    if v ∈ acc then g.reachDFS fuel rest acc
    else
      match fuel with
      | 0 => g.reachDFS 0 rest acc
      | f + 1 => g.reachDFS (f + 1) rest (g.reachDFS f (g.succs v) (v :: acc))
  termination_by fuel ws _ => (fuel, ws.length)

/-- The post-order DFS of graph.go GetTopologicalOrder, worklist form:
skip visited nodes; otherwise mark, visit all successors, then prepend
the node to the stack (`stack = append([]string{nodeID}, stack...)`).
State is (visited, stack). -/
def ExecutionGraph.topoVisit (g : ExecutionGraph) :
    Nat → List String → List String × List String → List String × List String
  | _, [], s => s
  | fuel, v :: rest, (vis, st) =>
    if v ∈ vis then g.topoVisit fuel rest (vis, st)
    else
      match fuel with
      | 0 => g.topoVisit 0 rest (vis, st)
      | f + 1 =>
        match g.topoVisit f (g.succs v) (v :: vis, st) with
        | (vis2, st2) => g.topoVisit (f + 1) rest (vis2, v :: st2)
  termination_by fuel ws _ => (fuel, ws.length)

/-- graph.go Validate: entry point set and present, no cycle found by the
DFS sweep, and every node reachable from the entry point (the Go early
returns are the conjuncts, in order). -/
def ExecutionGraph.Validate (g : ExecutionGraph) : Bool :=
  !(g.EntryPoint == "") &&
  (g.Nodes.lookup g.EntryPoint).isSome &&
  !(g.cycleSweep g.keys []) &&
  ((g.reachDFS g.Nodes.length [g.EntryPoint] []).length == g.Nodes.length)

/-- graph.go GetTopologicalOrder: validate, then run the post-order DFS
from the entry point; `none` models the non-nil error return. -/
def ExecutionGraph.GetTopologicalOrder (g : ExecutionGraph) : Option (List String) :=
  if g.Validate then
    some (g.topoVisit g.Nodes.length [g.EntryPoint] ([], [])).2
  else none

/-- graph.go TopologicalSort delegates to GetTopologicalOrder. -/
def ExecutionGraph.TopologicalSort (g : ExecutionGraph) : Option (List String) :=
  g.GetTopologicalOrder

/-- Pairwise-distinct keys, as every Go map has. -/
def distinctKeys : List String → Bool
  | [] => true
  | k :: rest => !(rest.contains k) && distinctKeys rest

/-- Well-formedness every graph built through AddNode/AddEdge has: keys
are pairwise distinct (Go map), each node records its own id, and every
successor is a node of the graph (AddEdge checks both endpoints). -/
def ExecutionGraph.wellFormed (g : ExecutionGraph) : Bool :=
  distinctKeys g.keys &&
  g.Nodes.all (fun kv => kv.2.StepID == kv.1 &&
    kv.2.Next.all (fun v => (g.Nodes.lookup v).isSome))

/-- workflow.go Workflow, restricted to what Build checks: the ids of the
registered steps and the embedded graph. -/
structure Workflow where
  steps : List String
  graph : ExecutionGraph

/-- part_000 WorkflowBuilder.Build success condition: the graph validates
and every node of the graph has a registered step. -/
def WorkflowBuilder.BuildOk (wf : Workflow) : Bool :=
  wf.graph.Validate && wf.graph.keys.all (fun stepID => wf.steps.contains stepID)

/-! Reachability over successor lists, used to state and derive the graph
facts (paths, cycles, the DFS-stack ordering invariant). -/

/-- `chain g u l v`: the nodes of `l` lead from `u` to `v` one edge at a
time (`l = []` means `u = v`). -/
def chain (g : ExecutionGraph) : String → List String → String → Prop
  | u, [], v => u = v
  | u, w :: l, v => w ∈ g.succs u ∧ chain g w l v

/-- `v` is reachable from `u` in zero or more edges. -/
def reachesStar (g : ExecutionGraph) (u v : String) : Prop := ∃ l, chain g u l v

/-- `v` is reachable from `u` in at least one edge. -/
def reachesPlus (g : ExecutionGraph) (u v : String) : Prop :=
  ∃ w l, w ∈ g.succs u ∧ chain g w l v

/-- No node lies on a directed cycle. -/
def acyclicG (g : ExecutionGraph) : Prop := ∀ u, ¬ reachesPlus g u u

/-- The finishing-order invariant of a DFS stack: every listed node's
successors occur strictly later in the list. -/
def stackOk (g : ExecutionGraph) : List String → Prop
  | [] => True
  | u :: rest => (∀ v ∈ g.succs u, v ∈ rest) ∧ stackOk g rest

/-- A concrete three-step chain a -> b -> c, as AddNode/AddEdge build it. -/
def exampleGraph : ExecutionGraph :=
  { EntryPoint := "a"
    Nodes := [("a", { StepID := "a", NType := "SEQUENTIAL", Next := ["b"] }),
              ("b", { StepID := "b", NType := "SEQUENTIAL", Next := ["c"] }),
              ("c", { StepID := "c", NType := "SEQUENTIAL", Next := [] })] }

/-- The workflow registering the three steps of exampleGraph. -/
def exampleWorkflow : Workflow :=
  { steps := ["a", "b", "c"], graph := exampleGraph }

end Gorkflow

namespace Gorkflow

/-! ## Temporary theorem section marker (theorems are appended below as the
development grows). -/

/-- w64 is the identity on values already inside the int64 range. -/
theorem w64_eq_self {x : Int} (h1 : -(2 ^ 63) ≤ x) (h2 : x < 2 ^ 63) : w64 x = x := by
  unfold w64
  have h0 : (0 : Int) ≤ x + 2 ^ 63 := by omega
  have hlt : x + 2 ^ 63 < 2 ^ 64 := by omega
  rw [Int.emod_eq_of_lt h0 hlt]
  omega

/-- C3 counterexample. The claim quantifies over every `attempt ≥ 0`, but
at `baseMs = 1`, `attempt = 64`, strategy EXPONENTIAL the Go computation
wraps: `1 << 63` is the minimum int64, and multiplying by the base delay
of 10^6 nanoseconds overflows to 0, not the claimed
`baseMs * 2 ^ (attempt - 1)` milliseconds (which is nonzero). -/
theorem C3_backoff_counterexample :
    CalculateBackoff 1 64 "EXPONENTIAL" = 0 ∧
    ((1 * 2 ^ (64 - 1) * 1000000 : Int) ≠ 0) := by
  constructor
  · rfl
  · decide

/-- C3 amended: the backoff delay formulas of the claim hold whenever the
computation stays inside 64-bit signed arithmetic (which is the case for
every realistic configuration): `0` for `attempt = 0` and for strategy
NONE; `baseMs * 2 ^ (attempt - 1)` milliseconds (10^6 nanoseconds a
millisecond) for EXPONENTIAL when `attempt ≤ 63` and the product is
below 2^63; `baseMs * attempt` milliseconds for LINEAR and for any
unknown strategy under the corresponding bound. -/
theorem C3_backoff_formulas (baseMs attempt : Int) (strategy : String)
    (hb : 0 ≤ baseMs) (ha : 0 ≤ attempt) :
    (attempt = 0 → CalculateBackoff baseMs attempt strategy = 0) ∧
    (strategy = BackoffNone → CalculateBackoff baseMs attempt strategy = 0) ∧
    (1 ≤ attempt → attempt ≤ 63 →
      baseMs * 2 ^ (attempt - 1).toNat * 1000000 < 2 ^ 63 →
      CalculateBackoff baseMs attempt BackoffExponential
        = baseMs * 2 ^ (attempt - 1).toNat * 1000000) ∧
    (1 ≤ attempt → baseMs * attempt * 1000000 < 2 ^ 63 →
      strategy ≠ BackoffExponential → strategy ≠ BackoffNone →
      CalculateBackoff baseMs attempt strategy = baseMs * attempt * 1000000) := by
  refine ⟨?_, ?_, ?_, ?_⟩
  · intro h0
    simp [CalculateBackoff, h0]
  · intro hs
    subst hs
    simp [CalculateBackoff, BackoffNone]
  · intro h1 h63 hbound
    have hK0 : (0 : Int) < 2 ^ (attempt - 1).toNat := pow_pos (by norm_num) _
    have hne : ¬ ((attempt == 0) = true) := by
      simp only [beq_iff_eq]
      omega
    simp only [CalculateBackoff, BackoffExponential]
    rw [if_neg hne, if_pos (by decide)]
    have hbase_nonneg : (0 : Int) ≤ baseMs * 1000000 := by
      have : (0 : Int) ≤ 1000000 := by norm_num
      exact mul_nonneg hb this
    have hbase_lt : baseMs * 1000000 < 2 ^ 63 := by nlinarith
    have hKlt : (2 : Int) ^ (attempt - 1).toNat < 2 ^ 63 := by
      calc (2 : Int) ^ (attempt - 1).toNat ≤ 2 ^ 62 := by
            apply pow_le_pow_right₀ (by norm_num)
            omega
        _ < 2 ^ 63 := by norm_num
    have hprod_nonneg : (0 : Int) ≤ baseMs * 1000000 * 2 ^ (attempt - 1).toNat :=
      mul_nonneg hbase_nonneg hK0.le
    rw [w64_eq_self (by linarith) hbase_lt, w64_eq_self (by linarith) hKlt]
    rw [w64_eq_self (by linarith) (by nlinarith)]
    ring
  · intro h1 hbound hexp hnone
    have hne : ¬ ((attempt == 0) = true) := by
      simp only [beq_iff_eq]
      omega
    have hexpb : ¬ ((strategy == "EXPONENTIAL") = true) := by
      simp only [beq_iff_eq]
      exact hexp
    have hnoneb : ¬ ((strategy == "NONE") = true) := by
      simp only [beq_iff_eq]
      exact hnone
    have hbase_nonneg : (0 : Int) ≤ baseMs * 1000000 := by
      have : (0 : Int) ≤ 1000000 := by norm_num
      exact mul_nonneg hb this
    have hbase_lt : baseMs * 1000000 < 2 ^ 63 := by nlinarith
    have hprod_nonneg : (0 : Int) ≤ baseMs * 1000000 * attempt :=
      mul_nonneg hbase_nonneg ha
    simp only [CalculateBackoff]
    rw [if_neg hne, if_neg hexpb]
    by_cases hlin : (strategy == "LINEAR") = true
    · rw [if_pos hlin]
      rw [w64_eq_self (by linarith) hbase_lt]
      rw [w64_eq_self (by linarith) (by nlinarith)]
      ring
    · rw [if_neg hlin, if_neg hnoneb]
      rw [w64_eq_self (by linarith) hbase_lt]
      rw [w64_eq_self (by linarith) (by nlinarith)]
      ring

/-- Witness for C3_backoff_formulas at concrete inputs: all four formulas
evaluated (attempt 0; NONE; EXPONENTIAL at attempt 3 with base 100ms,
giving 400ms = 4*10^8ns; LINEAR at attempt 3 with base 100ms, giving
300ms). -/
theorem C3_backoff_formulas_witness :
    CalculateBackoff 100 0 "LINEAR" = 0 ∧
    CalculateBackoff 100 5 "NONE" = 0 ∧
    CalculateBackoff 100 3 "EXPONENTIAL" = 400000000 ∧
    CalculateBackoff 100 3 "LINEAR" = 300000000 := by
  have h0 := C3_backoff_formulas 100 0 "LINEAR" (by norm_num) (by norm_num)
  have hn := C3_backoff_formulas 100 5 "NONE" (by norm_num) (by norm_num)
  have he := C3_backoff_formulas 100 3 "EXPONENTIAL" (by norm_num) (by norm_num)
  have hl := C3_backoff_formulas 100 3 "LINEAR" (by norm_num) (by norm_num)
  refine ⟨h0.1 rfl, hn.2.1 rfl, ?_, ?_⟩
  · exact (he.2.2.1 (by norm_num) (by norm_num) (by decide)).trans (by decide)
  · exact (hl.2.2.2 (by norm_num) (by decide) (by decide) (by decide)).trans (by decide)

/-! ## The retry loop: exhaustion behaviour -/

/-- Workhorse for the executeStep properties: when every attempt fails,
the loop started at `attempt` with fuel `remaining`
(`attempt + remaining = cfg.MaxRetries`) makes `remaining + 1` further
`step.Execute` calls, reports `MaxRetries + 1` attempts, returns the
exhaustion error, and persists a final FAILED record whose error carries
code EXECUTION_FAILED (never TIMEOUT) and attempt `cfg.MaxRetries`. -/
theorem executeStepLoop_allFail (cfg : ExecutionConfig) (beh : AttemptBehavior)
    (stepID : String)
    (hfail : ∀ a, ∃ m, beh.outcome a = ExecOutcome.failure m) :
    ∀ remaining attempt exec persisted delays calls,
      attempt + remaining = cfg.MaxRetries →
      (executeStepLoop cfg beh stepID remaining attempt exec persisted delays calls).calls
          = calls + remaining + 1 ∧
      (executeStepLoop cfg beh stepID remaining attempt exec persisted delays
          calls).result.AttemptsMade = cfg.MaxRetries + 1 ∧
      (∀ m, beh.outcome cfg.MaxRetries = ExecOutcome.failure m →
        (executeStepLoop cfg beh stepID remaining attempt exec persisted delays
            calls).errMsg
          = some ("step " ++ stepID ++ " failed after " ++ toString (cfg.MaxRetries + 1)
              ++ " attempts: " ++ wrapTimeout cfg beh cfg.MaxRetries m) ∧
        (executeStepLoop cfg beh stepID remaining attempt exec persisted delays
            calls).finalExec.Status = StepStatusFailed ∧
        (executeStepLoop cfg beh stepID remaining attempt exec persisted delays
            calls).finalExec.Error
          = some { Message := wrapTimeout cfg beh cfg.MaxRetries m,
                   Code := ErrCodeExecutionFailed, Attempt := cfg.MaxRetries } ∧
        (executeStepLoop cfg beh stepID remaining attempt exec persisted delays
            calls).persisted.getLast?
          = some (executeStepLoop cfg beh stepID remaining attempt exec persisted delays
              calls).finalExec) := by
  intro remaining
  induction remaining with
  | zero =>
    intro attempt exec persisted delays calls hsum
    obtain ⟨m, hm⟩ := hfail attempt
    have hattempt : attempt = cfg.MaxRetries := by omega
    subst hattempt
    refine ⟨?_, ?_, ?_⟩
    · simp only [executeStepLoop, hm]
    · simp only [executeStepLoop, hm]
    · intro m2 hm2
      rw [hm] at hm2
      cases hm2
      refine ⟨?_, ?_, ?_, ?_⟩
      · simp only [executeStepLoop, hm]
      · simp only [executeStepLoop, hm]
      · simp only [executeStepLoop, hm]
      · simp only [executeStepLoop, hm, List.getLast?_concat]
  | succ r ih =>
    intro attempt exec persisted delays calls hsum
    obtain ⟨m, hm⟩ := hfail attempt
    have hrec := ih (attempt + 1)
      ({ { exec with Status := StepStatusRunning, Attempt := attempt } with
          DurationMs := beh.durationMs attempt })
      ((if attempt > 0 then
          persisted ++ [{ exec with Status := StepStatusRetrying, Attempt := attempt }]
        else persisted)
        ++ [{ exec with Status := StepStatusRunning, Attempt := attempt }])
      (if attempt > 0 then
          delays ++ [calculateBackoff cfg.RetryDelayMs attempt cfg.RetryBackoff]
        else delays)
      (calls + 1) (by omega)
    have hstep : executeStepLoop cfg beh stepID (r + 1) attempt exec persisted delays calls
        = executeStepLoop cfg beh stepID r (attempt + 1)
          ({ { exec with Status := StepStatusRunning, Attempt := attempt } with
              DurationMs := beh.durationMs attempt })
          ((if attempt > 0 then
              persisted ++ [{ exec with Status := StepStatusRetrying, Attempt := attempt }]
            else persisted)
            ++ [{ exec with Status := StepStatusRunning, Attempt := attempt }])
          (if attempt > 0 then
              delays ++ [calculateBackoff cfg.RetryDelayMs attempt cfg.RetryBackoff]
            else delays)
          (calls + 1) := by
      conv_lhs => rw [executeStepLoop]
      simp only [hm]
    rw [hstep]
    refine ⟨hrec.1.trans (by omega), hrec.2.1, hrec.2.2⟩

/-- C2: when the step's Execute fails on every attempt (parent context
never cancelled, persistence succeeding — persistence is modelled as
succeeding, and in-loop persistence failures are only logged by the
code), executeStep with `max_retries = n` invokes step.Execute exactly
`n + 1` times, and the returned failure reports `AttemptsMade = n + 1`
(the returned error message also carries the count `n + 1`). -/
theorem C2_retry_attempt_count (cfg : ExecutionConfig) (beh : AttemptBehavior)
    (runID stepID : String) (inputBytes : Bytes)
    (hfail : ∀ a, ∃ m, beh.outcome a = ExecOutcome.failure m) :
    (executeStep cfg beh runID stepID inputBytes).calls = cfg.MaxRetries + 1 ∧
    (executeStep cfg beh runID stepID inputBytes).result.AttemptsMade
      = cfg.MaxRetries + 1 ∧
    (executeStep cfg beh runID stepID inputBytes).errMsg
      = some ("step " ++ stepID ++ " failed after " ++ toString (cfg.MaxRetries + 1)
          ++ " attempts: "
          ++ wrapTimeout cfg beh cfg.MaxRetries
               (match beh.outcome cfg.MaxRetries with
                | ExecOutcome.failure m => m
                | ExecOutcome.success _ => "")) := by
  obtain ⟨m, hm⟩ := hfail cfg.MaxRetries
  have h := executeStepLoop_allFail cfg beh stepID hfail cfg.MaxRetries 0
    { RunID := runID, StepID := stepID, ExecutionIndex := 0,
      Status := StepStatusPending, DurationMs := 0, Input := inputBytes,
      Output := none, Error := none, Attempt := 0 }
    [{ RunID := runID, StepID := stepID, ExecutionIndex := 0,
       Status := StepStatusPending, DurationMs := 0, Input := inputBytes,
       Output := none, Error := none, Attempt := 0 }]
    [] 0 (by omega)
  refine ⟨?_, ?_, ?_⟩
  · simpa [executeStep] using h.1
  · simpa [executeStep] using h.2.1
  · have h3 := (h.2.2 m hm).1
    rw [hm]
    simpa [executeStep] using h3

/-- Witness for C2 at `max_retries = 2` and an always-failing step:
3 invocations, 3 reported attempts. -/
theorem C2_retry_attempt_count_witness :
    (executeStep
      { MaxRetries := 2, RetryDelayMs := 100, RetryBackoff := "NONE",
        TimeoutSeconds := 30, MaxConcurrency := 1, ContinueOnError := false,
        FallbackStepID := none }
      { outcome := fun _ => ExecOutcome.failure "boom",
        deadlineExceeded := fun _ => false,
        parentCancelled := fun _ => false,
        durationMs := fun _ => 5 }
      "run-w2" "step-w2" []).calls = 3 ∧
    (executeStep
      { MaxRetries := 2, RetryDelayMs := 100, RetryBackoff := "NONE",
        TimeoutSeconds := 30, MaxConcurrency := 1, ContinueOnError := false,
        FallbackStepID := none }
      { outcome := fun _ => ExecOutcome.failure "boom",
        deadlineExceeded := fun _ => false,
        parentCancelled := fun _ => false,
        durationMs := fun _ => 5 }
      "run-w2" "step-w2" []).result.AttemptsMade = 3 := by
  have h := C2_retry_attempt_count
    { MaxRetries := 2, RetryDelayMs := 100, RetryBackoff := "NONE",
      TimeoutSeconds := 30, MaxConcurrency := 1, ContinueOnError := false,
      FallbackStepID := none }
    { outcome := fun _ => ExecOutcome.failure "boom",
      deadlineExceeded := fun _ => false,
      parentCancelled := fun _ => false,
      durationMs := fun _ => 5 }
    "run-w2" "step-w2" [] (fun _ => ⟨"boom", rfl⟩)
  exact ⟨h.1, h.2.1⟩

/-- C4 counterexample: a step with `max_retries = 0` whose single attempt
fails because the per-attempt deadline expired
(`execCtx.Err() == context.DeadlineExceeded`). The persisted
step-execution error record carries code EXECUTION_FAILED — not TIMEOUT
as the claim states; the timeout surfaces only in the wrapped message. -/
theorem C4_timeout_code_counterexample :
    ((executeStep
      { MaxRetries := 0, RetryDelayMs := 100, RetryBackoff := "NONE",
        TimeoutSeconds := 1, MaxConcurrency := 1, ContinueOnError := false,
        FallbackStepID := none }
      { outcome := fun _ => ExecOutcome.failure "context deadline exceeded",
        deadlineExceeded := fun _ => true,
        parentCancelled := fun _ => false,
        durationMs := fun _ => 1000 }
      "run-c4" "slow" []).finalExec.Error.map StepError.Code)
      = some ErrCodeExecutionFailed ∧
    ¬ (((executeStep
      { MaxRetries := 0, RetryDelayMs := 100, RetryBackoff := "NONE",
        TimeoutSeconds := 1, MaxConcurrency := 1, ContinueOnError := false,
        FallbackStepID := none }
      { outcome := fun _ => ExecOutcome.failure "context deadline exceeded",
        deadlineExceeded := fun _ => true,
        parentCancelled := fun _ => false,
        durationMs := fun _ => 1000 }
      "run-c4" "slow" []).finalExec.Error.map StepError.Code)
      = some ErrCodeTimeout) := by
  constructor
  · rfl
  · decide

/-- C4 amended: after retries are exhausted the persisted step-execution
error record always carries code EXECUTION_FAILED — even when the final
attempt failed because the per-attempt derived context's deadline
expired; in that case only the persisted error message records the
timeout, prefixed with "step timed out after N seconds: ". -/
theorem C4_exhaustion_error_code (cfg : ExecutionConfig) (beh : AttemptBehavior)
    (runID stepID : String) (inputBytes : Bytes) (m : String)
    (hfail : ∀ a, ∃ m2, beh.outcome a = ExecOutcome.failure m2)
    (hlast : beh.outcome cfg.MaxRetries = ExecOutcome.failure m) :
    (executeStep cfg beh runID stepID inputBytes).finalExec.Status
      = StepStatusFailed ∧
    (executeStep cfg beh runID stepID inputBytes).persisted.getLast?
      = some (executeStep cfg beh runID stepID inputBytes).finalExec ∧
    (executeStep cfg beh runID stepID inputBytes).finalExec.Error
      = some { Message := wrapTimeout cfg beh cfg.MaxRetries m,
               Code := ErrCodeExecutionFailed, Attempt := cfg.MaxRetries } ∧
    (beh.deadlineExceeded cfg.MaxRetries = true →
      (executeStep cfg beh runID stepID inputBytes).finalExec.Error
        = some { Message := "step timed out after " ++ toString cfg.TimeoutSeconds
                   ++ " seconds: " ++ m,
                 Code := ErrCodeExecutionFailed, Attempt := cfg.MaxRetries }) := by
  have h := executeStepLoop_allFail cfg beh stepID hfail cfg.MaxRetries 0
    { RunID := runID, StepID := stepID, ExecutionIndex := 0,
      Status := StepStatusPending, DurationMs := 0, Input := inputBytes,
      Output := none, Error := none, Attempt := 0 }
    [{ RunID := runID, StepID := stepID, ExecutionIndex := 0,
       Status := StepStatusPending, DurationMs := 0, Input := inputBytes,
       Output := none, Error := none, Attempt := 0 }]
    [] 0 (by omega)
  have h4 := h.2.2 m hlast
  refine ⟨by simpa [executeStep] using h4.2.1, by simpa [executeStep] using h4.2.2.2,
    by simpa [executeStep] using h4.2.2.1, ?_⟩
  intro hd
  have := h4.2.2.1
  rw [wrapTimeout, if_pos hd] at this
  simpa [executeStep] using this

/-- Witness for C4_exhaustion_error_code: the timeout scenario from the
counterexample, showing the theorem applies to it. -/
theorem C4_exhaustion_error_code_witness :
    (executeStep
      { MaxRetries := 0, RetryDelayMs := 100, RetryBackoff := "NONE",
        TimeoutSeconds := 1, MaxConcurrency := 1, ContinueOnError := false,
        FallbackStepID := none }
      { outcome := fun _ => ExecOutcome.failure "context deadline exceeded",
        deadlineExceeded := fun _ => true,
        parentCancelled := fun _ => false,
        durationMs := fun _ => 1000 }
      "run-w4" "slow-w" []).finalExec.Status = StepStatusFailed ∧
    ((executeStep
      { MaxRetries := 0, RetryDelayMs := 100, RetryBackoff := "NONE",
        TimeoutSeconds := 1, MaxConcurrency := 1, ContinueOnError := false,
        FallbackStepID := none }
      { outcome := fun _ => ExecOutcome.failure "context deadline exceeded",
        deadlineExceeded := fun _ => true,
        parentCancelled := fun _ => false,
        durationMs := fun _ => 1000 }
      "run-w4" "slow-w" []).finalExec.Error.map StepError.Code)
      = some ErrCodeExecutionFailed := by
  have h := C4_exhaustion_error_code
    { MaxRetries := 0, RetryDelayMs := 100, RetryBackoff := "NONE",
      TimeoutSeconds := 1, MaxConcurrency := 1, ContinueOnError := false,
      FallbackStepID := none }
    { outcome := fun _ => ExecOutcome.failure "context deadline exceeded",
      deadlineExceeded := fun _ => true,
      parentCancelled := fun _ => false,
      durationMs := fun _ => 1000 }
    "run-w4" "slow-w" [] "context deadline exceeded"
    (fun _ => ⟨"context deadline exceeded", rfl⟩) rfl
  refine ⟨h.1, ?_⟩
  rw [h.2.2.1]
  rfl

/-- The retry loop never reads the parent context: the `parentCancelled`
component of the attempt behaviour has no influence on anything the loop
does. -/
theorem executeStepLoop_parent_ctx_not_read (cfg : ExecutionConfig)
    (beh : AttemptBehavior) (pc : Nat → Bool) (stepID : String) :
    ∀ remaining attempt exec persisted delays calls,
      executeStepLoop cfg { beh with parentCancelled := pc } stepID remaining attempt
          exec persisted delays calls
        = executeStepLoop cfg beh stepID remaining attempt exec persisted delays calls := by
  intro remaining
  induction remaining with
  | zero =>
    intro attempt exec persisted delays calls
    rw [executeStepLoop, executeStepLoop]
    cases h : beh.outcome attempt <;> simp [h, wrapTimeout]
  | succ r ih =>
    intro attempt exec persisted delays calls
    rw [executeStepLoop, executeStepLoop]
    cases h : beh.outcome attempt <;> simp [h, wrapTimeout, ih]

/-- C5 counterexample: `max_retries = 1`, the parent context is cancelled
from the very first attempt (every attempt fails with the propagated
cancellation error), yet executeStep invokes step.Execute a second time:
the retry loop contains no parent-cancellation check, contradicting the
claim that no further attempt is made after the cancellation. -/
theorem C5_cancellation_counterexample :
    (executeStep
      { MaxRetries := 1, RetryDelayMs := 0, RetryBackoff := "NONE",
        TimeoutSeconds := 30, MaxConcurrency := 1, ContinueOnError := false,
        FallbackStepID := none }
      { outcome := fun _ => ExecOutcome.failure "context canceled",
        deadlineExceeded := fun _ => false,
        parentCancelled := fun _ => true,
        durationMs := fun _ => 1 }
      "run-c5" "step-c5" []).calls = 2 ∧ (2 : Nat) ≠ 1 := by
  constructor
  · rfl
  · decide

/-- C5 amended: the engine's retry loop ignores parent-context
cancellation entirely. Its behaviour is identical whatever the
cancellation state of the parent context during each attempt, and with
an always-failing step it still performs all `max_retries + 1`
invocations of step.Execute even when the parent context is cancelled
throughout (the only context state it inspects is the per-attempt
deadline, used to rewrap the error message). -/
theorem C5_retry_ignores_parent_cancellation (cfg : ExecutionConfig)
    (beh : AttemptBehavior) (pc : Nat → Bool) (runID stepID : String)
    (inputBytes : Bytes)
    (hfail : ∀ a, ∃ m, beh.outcome a = ExecOutcome.failure m) :
    executeStep cfg { beh with parentCancelled := pc } runID stepID inputBytes
      = executeStep cfg beh runID stepID inputBytes ∧
    (executeStep cfg { beh with parentCancelled := pc } runID stepID
        inputBytes).calls = cfg.MaxRetries + 1 := by
  have heq : executeStep cfg { beh with parentCancelled := pc } runID stepID inputBytes
      = executeStep cfg beh runID stepID inputBytes := by
    simp only [executeStep]
    exact executeStepLoop_parent_ctx_not_read cfg beh pc stepID cfg.MaxRetries 0 _ _ [] 0
  refine ⟨heq, ?_⟩
  rw [heq]
  obtain ⟨m, hm⟩ := hfail cfg.MaxRetries
  have h := executeStepLoop_allFail cfg beh stepID hfail cfg.MaxRetries 0
    { RunID := runID, StepID := stepID, ExecutionIndex := 0,
      Status := StepStatusPending, DurationMs := 0, Input := inputBytes,
      Output := none, Error := none, Attempt := 0 }
    [{ RunID := runID, StepID := stepID, ExecutionIndex := 0,
       Status := StepStatusPending, DurationMs := 0, Input := inputBytes,
       Output := none, Error := none, Attempt := 0 }]
    [] 0 (by omega)
  simpa [executeStep] using h.1

/-- Witness for C5_retry_ignores_parent_cancellation, at `max_retries = 1`
with the parent context cancelled during every attempt. -/
theorem C5_retry_ignores_parent_cancellation_witness :
    executeStep
      { MaxRetries := 1, RetryDelayMs := 0, RetryBackoff := "NONE",
        TimeoutSeconds := 30, MaxConcurrency := 1, ContinueOnError := false,
        FallbackStepID := none }
      { ({ outcome := fun _ => ExecOutcome.failure "context canceled",
           deadlineExceeded := fun _ => false,
           parentCancelled := fun _ => false,
           durationMs := fun _ => 1 } : AttemptBehavior) with
        parentCancelled := fun _ => true }
      "run-w5" "step-w5" []
    = executeStep
      { MaxRetries := 1, RetryDelayMs := 0, RetryBackoff := "NONE",
        TimeoutSeconds := 30, MaxConcurrency := 1, ContinueOnError := false,
        FallbackStepID := none }
      { outcome := fun _ => ExecOutcome.failure "context canceled",
        deadlineExceeded := fun _ => false,
        parentCancelled := fun _ => false,
        durationMs := fun _ => 1 }
      "run-w5" "step-w5" [] ∧
    (executeStep
      { MaxRetries := 1, RetryDelayMs := 0, RetryBackoff := "NONE",
        TimeoutSeconds := 30, MaxConcurrency := 1, ContinueOnError := false,
        FallbackStepID := none }
      { ({ outcome := fun _ => ExecOutcome.failure "context canceled",
           deadlineExceeded := fun _ => false,
           parentCancelled := fun _ => false,
           durationMs := fun _ => 1 } : AttemptBehavior) with
        parentCancelled := fun _ => true }
      "run-w5" "step-w5" []).calls = 2 := by
  exact C5_retry_ignores_parent_cancellation
    { MaxRetries := 1, RetryDelayMs := 0, RetryBackoff := "NONE",
      TimeoutSeconds := 30, MaxConcurrency := 1, ContinueOnError := false,
      FallbackStepID := none }
    { outcome := fun _ => ExecOutcome.failure "context canceled",
      deadlineExceeded := fun _ => false,
      parentCancelled := fun _ => false,
      durationMs := fun _ => 1 }
    (fun _ => true) "run-w5" "step-w5" []
    (fun _ => ⟨"context canceled", rfl⟩)

/-! ## Progress accounting -/

theorem countWhere_all_true {stat : List (String × String)} {p : String → Bool}
    (h : ∀ kv ∈ stat, p kv.2 = true) :
    countWhere p stat = stat.length := by
  unfold countWhere
  rw [List.filter_eq_self.mpr]
  intro kv hkv
  exact h kv hkv

theorem countWhere_append_one (p : String → Bool) (l : List (String × String))
    (x : String × String) :
    countWhere p (l ++ [x]) = countWhere p l + (if p x.2 then 1 else 0) := by
  cases h : p x.2 <;> simp [countWhere, List.filter_append, h]

/-- Invariant bundle for the run loop: starting at `i` processed steps
(all persisted step records terminal, progress `i / total`), the
remaining observations have non-decreasing progress, COMPLETED implies
progress exactly 1, every recorded step status stays terminal, and the
progress never exceeds the ratio of terminal step-execution records. -/
theorem executeWorkflowLoop_spec (total : Nat) (cancelAt : Nat → Bool)
    (htot : 0 < total) :
    ∀ (steps : List StepSpec) (i : Nat) (stat : List (String × String)),
      i + steps.length = total →
      stat.length = i →
      (∀ kv ∈ stat, stepStatusIsTerminal kv.2 = true) →
      List.Chain' (fun a b => a.progress ≤ b.progress)
        ({ status := RunStatusRunning, progress := (i : Rat) / (total : Rat),
           stepStatuses := stat } ::
          executeWorkflowLoop total cancelAt steps i ((i : Rat) / (total : Rat)) stat) ∧
      (∀ o ∈ executeWorkflowLoop total cancelAt steps i ((i : Rat) / (total : Rat)) stat,
        (o.status = RunStatusCompleted → o.progress = 1) ∧
        o.progress ≤ (countWhere (fun s => stepStatusIsTerminal s) o.stepStatuses : Rat)
            / (total : Rat)) := by
  have htQ : (0 : Rat) < (total : Rat) := by exact_mod_cast htot
  have htne : (total : Rat) ≠ 0 := ne_of_gt htQ
  intro steps
  induction steps with
  | nil =>
    intro i stat hsum hlen hterm
    have hi : i = total := by simpa using hsum
    subst hi
    rw [executeWorkflowLoop]
    constructor
    · simp only [List.chain'_cons, List.chain'_singleton, and_true]
      rw [div_self htne]
    · intro o ho
      simp only [List.mem_singleton] at ho
      subst ho
      refine ⟨fun _ => rfl, ?_⟩
      simp only
      rw [countWhere_all_true hterm, hlen, div_self htne]
  | cons sp rest ih =>
    intro i stat hsum hlen hterm
    simp only [List.length_cons] at hsum
    have hnewterm :
        stepStatusIsTerminal
          (if sp.succeeds then StepStatusCompleted else StepStatusFailed) = true := by
      cases sp.succeeds <;> decide
    have hterm2 : ∀ kv ∈ stat
        ++ [(sp.id, if sp.succeeds then StepStatusCompleted else StepStatusFailed)],
        stepStatusIsTerminal kv.2 = true := by
      intro kv hkv
      rcases List.mem_append.mp hkv with h | h
      · exact hterm kv h
      · simp only [List.mem_singleton] at h
        subst h
        exact hnewterm
    have hcount2 : countWhere (fun s => stepStatusIsTerminal s)
        (stat ++ [(sp.id, if sp.succeeds then StepStatusCompleted else StepStatusFailed)])
        = i + 1 := by
      rw [countWhere_append_one, countWhere_all_true hterm, hlen, if_pos hnewterm]
    have hmono : (i : Rat) / (total : Rat) ≤ ((i : Rat) + 1) / (total : Rat) := by
      gcongr
      linarith
    have hcast : (((i + 1 : Nat) : Rat)) = (i : Rat) + 1 := by push_cast; ring
    by_cases hc : cancelAt i = true
    · have hloop : executeWorkflowLoop total cancelAt (sp :: rest) i
          ((i : Rat) / (total : Rat)) stat
          = [{ status := RunStatusCancelled, progress := (i : Rat) / (total : Rat),
               stepStatuses := stat }] := by
        simp [executeWorkflowLoop, hc]
      rw [hloop]
      constructor
      · simp [List.chain'_cons, List.chain'_singleton]
      · intro o ho
        simp only [List.mem_singleton] at ho
        subst ho
        refine ⟨fun hcontra => by
          simp [RunStatusCancelled, RunStatusCompleted] at hcontra, ?_⟩
        simp only
        rw [countWhere_all_true hterm, hlen]
    · by_cases hr : (sp.succeeds || sp.continueOnError) = true
      · have hloop : executeWorkflowLoop total cancelAt (sp :: rest) i
            ((i : Rat) / (total : Rat)) stat
            = { status := RunStatusRunning, progress := ((i : Rat) + 1) / (total : Rat),
                stepStatuses := stat
                  ++ [(sp.id, if sp.succeeds then StepStatusCompleted
                        else StepStatusFailed)] } ::
              executeWorkflowLoop total cancelAt rest (i + 1)
                (((i : Rat) + 1) / (total : Rat))
                (stat ++ [(sp.id, if sp.succeeds then StepStatusCompleted
                    else StepStatusFailed)]) := by
          simp [executeWorkflowLoop, hc, hr]
        have hrec := ih (i + 1)
          (stat ++ [(sp.id, if sp.succeeds then StepStatusCompleted
              else StepStatusFailed)])
          (by omega) (by simp [hlen]) hterm2
        rw [hcast] at hrec
        rw [hloop]
        constructor
        · rw [List.chain'_cons]
          exact ⟨hmono, hrec.1⟩
        · intro o ho
          rcases List.mem_cons.mp ho with h | h
          · subst h
            refine ⟨fun hcontra => by
              simp [RunStatusRunning, RunStatusCompleted] at hcontra, ?_⟩
            simp only
            rw [hcount2, hcast]
          · exact hrec.2 o h
      · have hloop : executeWorkflowLoop total cancelAt (sp :: rest) i
            ((i : Rat) / (total : Rat)) stat
            = [{ status := RunStatusFailed, progress := (i : Rat) / (total : Rat),
                 stepStatuses := stat
                   ++ [(sp.id, if sp.succeeds then StepStatusCompleted
                         else StepStatusFailed)] }] := by
          simp only [executeWorkflowLoop]
          rw [if_neg hc, if_neg hr]
        rw [hloop]
        constructor
        · simp [List.chain'_cons, List.chain'_singleton]
        · intro o ho
          simp only [List.mem_singleton] at ho
          subst ho
          refine ⟨fun hcontra => by
            simp [RunStatusFailed, RunStatusCompleted] at hcontra, ?_⟩
          simp only
          rw [hcount2]
          calc (i : Rat) / (total : Rat)
              ≤ ((i : Rat) + 1) / (total : Rat) := hmono
            _ = (((i + 1 : Nat) : Rat)) / (total : Rat) := by rw [hcast]

/-- C6 amended: over a run's lifetime the persisted progress is
monotonically non-decreasing, equals exactly 1.0 when the persisted
status is COMPLETED, and never exceeds `c / total` where `c` is the
number of the run's step executions with a TERMINAL status (completed,
failed or skipped) at the time of observation — a step that failed but
was passed over through ContinueOnError counts here, which is exactly
where the original claim (counting only terminal-SUCCESS executions)
fails. -/
theorem C6_progress_invariants (steps : List StepSpec) (cancelAt : Nat → Bool)
    (hne : steps ≠ []) :
    List.Chain' (fun a b => a.progress ≤ b.progress)
      (executeWorkflowObs steps cancelAt) ∧
    (∀ o ∈ executeWorkflowObs steps cancelAt,
      (o.status = RunStatusCompleted → o.progress = 1) ∧
      o.progress ≤ (countWhere (fun s => stepStatusIsTerminal s) o.stepStatuses : Rat)
          / (steps.length : Rat)) := by
  have htot : 0 < steps.length := List.length_pos.mpr hne
  have h := executeWorkflowLoop_spec steps.length cancelAt htot steps 0 []
    (by omega) rfl (by intro kv hkv; cases hkv)
  have h0 : ((0 : Nat) : Rat) / (steps.length : Rat) = 0 := by
    norm_num
  rw [h0] at h
  constructor
  · unfold executeWorkflowObs
    rw [List.chain'_cons]
    exact ⟨le_refl 0, h.1⟩
  · intro o ho
    unfold executeWorkflowObs at ho
    rcases List.mem_cons.mp ho with h1 | h1
    · subst h1
      refine ⟨fun hcontra => absurd hcontra (by decide), ?_⟩
      simp [countWhere]
    · rcases List.mem_cons.mp h1 with h2 | h2
      · subst h2
        refine ⟨fun hcontra => absurd hcontra (by decide), ?_⟩
        simp [countWhere]
      · exact h.2 o h2

/-- C6 counterexample: a single-step run whose step fails with
ContinueOnError. The run persists an observation (the COMPLETED record)
with progress 1.0 while no step execution of the run has a
terminal-success status — the only record is FAILED — so the persisted
progress exceeds `c / total = 0 / 1` and the claim as stated is false at
this input. -/
theorem C6_progress_counterexample :
    ∃ o ∈ executeWorkflowObs
        [{ id := "s", succeeds := false, continueOnError := true }] (fun _ => false),
      countWhere (fun s => s == StepStatusCompleted || s == StepStatusSkipped)
          o.stepStatuses = 0 ∧
      o.status = RunStatusCompleted ∧
      ¬ (o.progress ≤ (0 : Rat) / (1 : Rat)) := by
  refine ⟨{ status := RunStatusCompleted, progress := 1,
            stepStatuses := [("s", StepStatusFailed)] }, ?_, ?_, rfl, ?_⟩
  · simp [executeWorkflowObs, executeWorkflowLoop]
  · decide
  · norm_num

/-- Witness for C6_progress_invariants on a concrete two-step run (one
success, one ContinueOnError failure), no cancellation. -/
theorem C6_progress_invariants_witness :
    List.Chain' (fun a b => a.progress ≤ b.progress)
      (executeWorkflowObs
        [{ id := "a", succeeds := true, continueOnError := false },
         { id := "b", succeeds := false, continueOnError := true }] (fun _ => false)) ∧
    (∀ o ∈ executeWorkflowObs
        [{ id := "a", succeeds := true, continueOnError := false },
         { id := "b", succeeds := false, continueOnError := true }] (fun _ => false),
      (o.status = RunStatusCompleted → o.progress = 1) ∧
      o.progress ≤ (countWhere (fun s => stepStatusIsTerminal s) o.stepStatuses : Rat)
          / ((2 : Nat) : Rat)) :=
  C6_progress_invariants
    [{ id := "a", succeeds := true, continueOnError := false },
     { id := "b", succeeds := false, continueOnError := true }] (fun _ => false)
    (by decide)

/-! ## Association-list map facts -/

theorem lookup_mapInsert_self {α : Type} (k : String) (v : α)
    (l : List (String × α)) : (mapInsert k v l).lookup k = some v := by
  induction l with
  | nil => simp [mapInsert, List.lookup]
  | cons kv rest ih =>
    obtain ⟨k2, v2⟩ := kv
    by_cases h : k = k2
    · subst h
      simp [mapInsert, List.lookup]
    · have hbeq : (k == k2) = false := by simpa using h
      simp [mapInsert, h, List.lookup, hbeq, ih]

/-- C7: ConditionalStep.Execute and conditionalStepWrapper.Execute: when
the gate predicate is false the result is the JSON marshalling of the
caller-supplied default (or of the zero value of the declared output
type when none was supplied) and the wrapped step is never invoked; when
the predicate errors, Execute fails with the wrapped condition error and
the wrapped step is never invoked. -/
theorem C7_conditional_gate {α : Type} (dflt : Option α)
    (marshal : α → Except String Bytes) (zero : α)
    (wrapped : Bytes → Except String Bytes) (input : Bytes) (e : String) (d : α) :
    (ConditionalStepExecute (Except.ok false) (some d) marshal zero wrapped input
      = (marshal d, false)) ∧
    (ConditionalStepExecute (Except.ok false) (none : Option α) marshal zero wrapped
        input = (marshal zero, false)) ∧
    (ConditionalStepExecute (Except.error e) dflt marshal zero wrapped input
      = (Except.error ("condition evaluation failed: " ++ e), false)) ∧
    (conditionalStepWrapperExecute (Except.ok false) (some d) marshal zero wrapped
        input = (marshal d, false)) ∧
    (conditionalStepWrapperExecute (Except.ok false) (none : Option α) marshal zero
        wrapped input = (marshal zero, false)) ∧
    (conditionalStepWrapperExecute (Except.error e) dflt marshal zero wrapped input
      = (Except.error ("condition evaluation failed: " ++ e), false)) :=
  ⟨rfl, rfl, rfl, rfl, rfl, rfl⟩

/-- C8: Cancel on a run whose persisted status is terminal returns an
error and leaves the store untouched; on a non-terminal run it succeeds
and the stored run's status becomes CANCELLED. `hid` is the store
invariant that a run is keyed by its own RunID (CreateRun/UpdateRun key
by `run.RunID`). -/
theorem C8_cancel_terminal (s : MemoryStore) (runID : String) (run : WorkflowRun)
    (hlk : s.runs.lookup runID = some run) (hid : run.RunID = runID) :
    (runStatusIsTerminal run.Status = true →
      (∃ e, (Engine.Cancel s runID).1 = Except.error e) ∧
      (Engine.Cancel s runID).2 = s) ∧
    (runStatusIsTerminal run.Status = false →
      (Engine.Cancel s runID).1 = Except.ok () ∧
      (Engine.Cancel s runID).2.runs.lookup runID
        = some { run with Status := RunStatusCancelled }) := by
  have hgetrun : s.GetRun runID = Except.ok run := by
    unfold MemoryStore.GetRun
    rw [hlk]
  constructor
  · intro hterm
    have hc : Engine.Cancel s runID
        = (Except.error ("cannot cancel workflow in " ++ run.Status ++ " state"), s) := by
      unfold Engine.Cancel
      rw [hgetrun]
      simp only [if_pos hterm]
    rw [hc]
    exact ⟨⟨_, rfl⟩, rfl⟩
  · intro hterm
    have hkey : ({ run with Status := RunStatusCancelled } : WorkflowRun).RunID
        = runID := hid
    have hupd : s.UpdateRun { run with Status := RunStatusCancelled }
        = (Except.ok (),
           { s with
             runs := mapInsert runID { run with Status := RunStatusCancelled } s.runs }) := by
      unfold MemoryStore.UpdateRun
      rw [hkey, hlk]
    have hc : Engine.Cancel s runID
        = (Except.ok (),
           { s with
             runs := mapInsert runID { run with Status := RunStatusCancelled } s.runs }) := by
      unfold Engine.Cancel
      rw [hgetrun]
      simp only [hterm, Bool.false_eq_true, if_false]
      unfold Engine.cancelWorkflow
      simp only [hupd]
    rw [hc]
    exact ⟨rfl, lookup_mapInsert_self runID _ s.runs⟩

/-- Witness for C8: a store holding a COMPLETED run (Cancel rejected,
store unchanged) and a RUNNING run (Cancel succeeds, status becomes
CANCELLED). -/
theorem C8_cancel_terminal_witness :
    ((∃ e, (Engine.Cancel
        { runs := [("r-done",
            { RunID := "r-done", WorkflowID := "wf", WorkflowVersion := "1.0",
              Status := RunStatusCompleted, Progress := 1, Input := [],
              Output := none, Error := none, ResourceID := "", TTL := 0 })],
          stepExecutions := [], stepOutputs := [], state := [] }
        "r-done").1 = Except.error e) ∧
      (Engine.Cancel
        { runs := [("r-done",
            { RunID := "r-done", WorkflowID := "wf", WorkflowVersion := "1.0",
              Status := RunStatusCompleted, Progress := 1, Input := [],
              Output := none, Error := none, ResourceID := "", TTL := 0 })],
          stepExecutions := [], stepOutputs := [], state := [] }
        "r-done").2
        = { runs := [("r-done",
              { RunID := "r-done", WorkflowID := "wf", WorkflowVersion := "1.0",
                Status := RunStatusCompleted, Progress := 1, Input := [],
                Output := none, Error := none, ResourceID := "", TTL := 0 })],
            stepExecutions := [], stepOutputs := [], state := [] }) ∧
    ((Engine.Cancel
        { runs := [("r-live",
            { RunID := "r-live", WorkflowID := "wf", WorkflowVersion := "1.0",
              Status := RunStatusRunning, Progress := 0, Input := [],
              Output := none, Error := none, ResourceID := "", TTL := 0 })],
          stepExecutions := [], stepOutputs := [], state := [] }
        "r-live").1 = Except.ok () ∧
      (Engine.Cancel
        { runs := [("r-live",
            { RunID := "r-live", WorkflowID := "wf", WorkflowVersion := "1.0",
              Status := RunStatusRunning, Progress := 0, Input := [],
              Output := none, Error := none, ResourceID := "", TTL := 0 })],
          stepExecutions := [], stepOutputs := [], state := [] }
        "r-live").2.runs.lookup "r-live"
        = some { RunID := "r-live", WorkflowID := "wf", WorkflowVersion := "1.0",
                 Status := RunStatusCancelled, Progress := 0, Input := [],
                 Output := none, Error := none, ResourceID := "", TTL := 0 }) := by
  constructor
  · exact (C8_cancel_terminal
      { runs := [("r-done",
          { RunID := "r-done", WorkflowID := "wf", WorkflowVersion := "1.0",
            Status := RunStatusCompleted, Progress := 1, Input := [],
            Output := none, Error := none, ResourceID := "", TTL := 0 })],
        stepExecutions := [], stepOutputs := [], state := [] }
      "r-done"
      { RunID := "r-done", WorkflowID := "wf", WorkflowVersion := "1.0",
        Status := RunStatusCompleted, Progress := 1, Input := [],
        Output := none, Error := none, ResourceID := "", TTL := 0 }
      (by rfl) rfl).1 (by decide)
  · exact (C8_cancel_terminal
      { runs := [("r-live",
          { RunID := "r-live", WorkflowID := "wf", WorkflowVersion := "1.0",
            Status := RunStatusRunning, Progress := 0, Input := [],
            Output := none, Error := none, ResourceID := "", TTL := 0 })],
        stepExecutions := [], stepOutputs := [], state := [] }
      "r-live"
      { RunID := "r-live", WorkflowID := "wf", WorkflowVersion := "1.0",
        Status := RunStatusRunning, Progress := 0, Input := [],
        Output := none, Error := none, ResourceID := "", TTL := 0 }
      (by rfl) rfl).2 (by decide)

/-- C9: stateAccessor.Set writes the marshalled value into the per-run
cache before attempting the backend write, so when the backend SaveState
fails, Set returns an error, yet the cache already holds the new value
and a subsequent Get on the same accessor returns it from the cache —
whatever the backend would return. -/
theorem C9_state_cache_write_first (a : stateAccessor) (key : String)
    (data : Bytes) (e : String) (loadResult : Except String Bytes) :
    (∃ msg, (a.Set key data (Except.error e)).1 = Except.error msg) ∧
    (a.Set key data (Except.error e)).2.cache.lookup key = some data ∧
    ((a.Set key data (Except.error e)).2.Get key loadResult).1
      = Except.ok data := by
  refine ⟨⟨_, rfl⟩, ?_, ?_⟩
  · exact lookup_mapInsert_self key data a.cache
  · unfold stateAccessor.Get stateAccessor.Set
    simp only
    rw [lookup_mapInsert_self key data a.cache]

/-- C10: MemoryStore.CreateStepExecution never fails on a duplicate —
with a record already present for the same (runID, stepID) it succeeds
and silently overwrites — while MemoryStore.CreateRun fails on a
duplicate RunID and leaves the stored run (and the whole store)
unchanged. -/
theorem C10_create_semantics (s : MemoryStore) (exec old : StepExecution)
    (run existing : WorkflowRun)
    (_hdup : ((s.stepExecutions.lookup exec.RunID).getD []).lookup exec.StepID
      = some old)
    (hrundup : s.runs.lookup run.RunID = some existing) :
    ((s.CreateStepExecution exec).1 = Except.ok () ∧
     (((s.CreateStepExecution exec).2.stepExecutions.lookup exec.RunID).getD
        []).lookup exec.StepID = some exec) ∧
    ((∃ e, (s.CreateRun run).1 = Except.error e) ∧
     (s.CreateRun run).2 = s ∧
     (s.CreateRun run).2.runs.lookup run.RunID = some existing) := by
  refine ⟨⟨rfl, ?_⟩, ?_⟩
  · unfold MemoryStore.CreateStepExecution
    simp only
    rw [lookup_mapInsert_self]
    simp only [Option.getD_some]
    exact lookup_mapInsert_self exec.StepID exec _
  · unfold MemoryStore.CreateRun
    rw [hrundup]
    exact ⟨⟨_, rfl⟩, rfl, by rw [hrundup]⟩

/-- Witness for C10: a concrete store with an existing step-execution
record at ("r1","s1") being overwritten, and a duplicate CreateRun for
"r1" being rejected. -/
theorem C10_create_semantics_witness :
    ((MemoryStore.CreateStepExecution
        { runs := [("r1",
            { RunID := "r1", WorkflowID := "wf", WorkflowVersion := "1.0",
              Status := RunStatusRunning, Progress := 0, Input := [],
              Output := none, Error := none, ResourceID := "", TTL := 0 })],
          stepExecutions := [("r1", [("s1",
            { RunID := "r1", StepID := "s1", ExecutionIndex := 0,
              Status := StepStatusPending, DurationMs := 0, Input := [],
              Output := none, Error := none, Attempt := 0 })])],
          stepOutputs := [], state := [] }
        { RunID := "r1", StepID := "s1", ExecutionIndex := 0,
          Status := StepStatusCompleted, DurationMs := 7, Input := [],
          Output := some [1], Error := none, Attempt := 2 }).1 = Except.ok () ∧
     (((MemoryStore.CreateStepExecution
        { runs := [("r1",
            { RunID := "r1", WorkflowID := "wf", WorkflowVersion := "1.0",
              Status := RunStatusRunning, Progress := 0, Input := [],
              Output := none, Error := none, ResourceID := "", TTL := 0 })],
          stepExecutions := [("r1", [("s1",
            { RunID := "r1", StepID := "s1", ExecutionIndex := 0,
              Status := StepStatusPending, DurationMs := 0, Input := [],
              Output := none, Error := none, Attempt := 0 })])],
          stepOutputs := [], state := [] }
        { RunID := "r1", StepID := "s1", ExecutionIndex := 0,
          Status := StepStatusCompleted, DurationMs := 7, Input := [],
          Output := some [1], Error := none, Attempt := 2 }).2.stepExecutions.lookup
          "r1").getD []).lookup "s1"
        = some { RunID := "r1", StepID := "s1", ExecutionIndex := 0,
                 Status := StepStatusCompleted, DurationMs := 7, Input := [],
                 Output := some [1], Error := none, Attempt := 2 }) ∧
    ((∃ e, (MemoryStore.CreateRun
        { runs := [("r1",
            { RunID := "r1", WorkflowID := "wf", WorkflowVersion := "1.0",
              Status := RunStatusRunning, Progress := 0, Input := [],
              Output := none, Error := none, ResourceID := "", TTL := 0 })],
          stepExecutions := [("r1", [("s1",
            { RunID := "r1", StepID := "s1", ExecutionIndex := 0,
              Status := StepStatusPending, DurationMs := 0, Input := [],
              Output := none, Error := none, Attempt := 0 })])],
          stepOutputs := [], state := [] }
        { RunID := "r1", WorkflowID := "wf2", WorkflowVersion := "2.0",
          Status := RunStatusPending, Progress := 0, Input := [],
          Output := none, Error := none, ResourceID := "", TTL := 0 }).1
        = Except.error e)) := by
  have h := C10_create_semantics
    { runs := [("r1",
        { RunID := "r1", WorkflowID := "wf", WorkflowVersion := "1.0",
          Status := RunStatusRunning, Progress := 0, Input := [],
          Output := none, Error := none, ResourceID := "", TTL := 0 })],
      stepExecutions := [("r1", [("s1",
        { RunID := "r1", StepID := "s1", ExecutionIndex := 0,
          Status := StepStatusPending, DurationMs := 0, Input := [],
          Output := none, Error := none, Attempt := 0 })])],
      stepOutputs := [], state := [] }
    { RunID := "r1", StepID := "s1", ExecutionIndex := 0,
      Status := StepStatusCompleted, DurationMs := 7, Input := [],
      Output := some [1], Error := none, Attempt := 2 }
    { RunID := "r1", StepID := "s1", ExecutionIndex := 0,
      Status := StepStatusPending, DurationMs := 0, Input := [],
      Output := none, Error := none, Attempt := 0 }
    { RunID := "r1", WorkflowID := "wf2", WorkflowVersion := "2.0",
      Status := RunStatusPending, Progress := 0, Input := [],
      Output := none, Error := none, ResourceID := "", TTL := 0 }
    { RunID := "r1", WorkflowID := "wf", WorkflowVersion := "1.0",
      Status := RunStatusRunning, Progress := 0, Input := [],
      Output := none, Error := none, ResourceID := "", TTL := 0 }
    (by rfl) (by rfl)
  exact ⟨⟨h.1.1, h.1.2⟩, h.2.1⟩

/-! ## Association lists as Go maps: lookup facts -/

theorem lookup_some_mem {α : Type} {l : List (String × α)} {k : String} {v : α}
    (h : l.lookup k = some v) : (k, v) ∈ l := by
  induction l with
  | nil => cases h
  | cons kv rest ih =>
    obtain ⟨k2, v2⟩ := kv
    by_cases hk : k = k2
    · subst hk
      simp [List.lookup] at h
      subst h
      exact List.mem_cons_self _ _
    · have hbeq : (k == k2) = false := by simpa using hk
      simp [List.lookup, hbeq] at h
      exact List.mem_cons_of_mem _ (ih h)

theorem lookup_isSome_iff_mem_fst {α : Type} (l : List (String × α)) (k : String) :
    (l.lookup k).isSome = true ↔ k ∈ l.map Prod.fst := by
  induction l with
  | nil => simp [List.lookup]
  | cons kv rest ih =>
    obtain ⟨k2, v2⟩ := kv
    by_cases hk : k = k2
    · subst hk
      simp [List.lookup]
    · have hbeq : (k == k2) = false := by simpa using hk
      simp [List.lookup, hbeq, hk, ih]

/-! ## Graph well-formedness consequences -/

theorem distinctKeys_iff (l : List String) : distinctKeys l = true ↔ l.Nodup := by
  induction l with
  | nil => simp [distinctKeys]
  | cons k rest ih =>
    simp [distinctKeys, ih, List.nodup_cons]

theorem succs_eq_nil_of_not_mem {g : ExecutionGraph} {k : String}
    (h : k ∉ g.keys) : g.succs k = [] := by
  unfold ExecutionGraph.succs
  have : (g.Nodes.lookup k).isSome ≠ true := fun hs =>
    h ((lookup_isSome_iff_mem_fst g.Nodes k).mp hs)
  cases hlk : g.Nodes.lookup k with
  | none => rfl
  | some n =>
    rw [hlk] at this
    simp at this

theorem wellFormed_keys_nodup {g : ExecutionGraph}
    (hwf : g.wellFormed = true) : g.keys.Nodup := by
  unfold ExecutionGraph.wellFormed at hwf
  rw [Bool.and_eq_true] at hwf
  exact (distinctKeys_iff g.keys).mp hwf.1

theorem wellFormed_succs_mem {g : ExecutionGraph} (hwf : g.wellFormed = true)
    (u : String) : ∀ v ∈ g.succs u, v ∈ g.keys := by
  intro v hv
  unfold ExecutionGraph.succs at hv
  cases hlk : g.Nodes.lookup u with
  | none =>
    rw [hlk] at hv
    cases hv
  | some n =>
    rw [hlk] at hv
    unfold ExecutionGraph.wellFormed at hwf
    rw [Bool.and_eq_true] at hwf
    have hmem := lookup_some_mem hlk
    have h2 := List.all_eq_true.mp hwf.2 ⟨u, n⟩ hmem
    rw [Bool.and_eq_true] at h2
    have h3 := List.all_eq_true.mp h2.2 v hv
    rw [lookup_isSome_iff_mem_fst] at h3
    exact h3

/-! ## Paths, cycles and the DFS-stack invariant -/

theorem chain_append {g : ExecutionGraph} :
    ∀ {l : List String} {u v w : String},
      chain g u l v → w ∈ g.succs v → chain g u (l ++ [w]) w := by
  intro l
  induction l with
  | nil =>
    intro u v w hc hw
    simp only [chain] at hc
    subst hc
    exact ⟨hw, rfl⟩
  | cons x l ih =>
    intro u v w hc hw
    obtain ⟨hx, hc2⟩ := hc
    exact ⟨hx, ih hc2 hw⟩

theorem reachesPlus_snoc {g : ExecutionGraph} {u v w : String}
    (h : reachesPlus g u v) (hw : w ∈ g.succs v) : reachesPlus g u w := by
  obtain ⟨x, l, hx, hc⟩ := h
  exact ⟨x, l ++ [w], hx, chain_append hc hw⟩

theorem edge_reachesPlus {g : ExecutionGraph} {u v : String}
    (hv : v ∈ g.succs u) : reachesPlus g u v :=
  ⟨v, [], hv, rfl⟩

theorem stackOk_mem_succs {g : ExecutionGraph} :
    ∀ {st : List String}, stackOk g st →
      ∀ {x}, x ∈ st → ∀ {v}, v ∈ g.succs x → v ∈ st := by
  intro st
  induction st with
  | nil =>
    intro _ x hx
    cases hx
  | cons u rest ih =>
    intro hok x hx v hv
    obtain ⟨hsucc, hok2⟩ := hok
    rcases List.mem_cons.mp hx with h | h
    · subst h
      exact List.mem_cons_of_mem _ (hsucc v hv)
    · exact List.mem_cons_of_mem _ (ih hok2 h hv)

theorem stackOk_reachesStar_mem {g : ExecutionGraph} {st : List String}
    (hok : stackOk g st) :
    ∀ {x y}, x ∈ st → reachesStar g x y → y ∈ st := by
  intro x y hx hr
  obtain ⟨l, hc⟩ := hr
  induction l generalizing x with
  | nil =>
    simp only [chain] at hc
    subst hc
    exact hx
  | cons w l ih =>
    obtain ⟨hw, hc2⟩ := hc
    exact ih (stackOk_mem_succs hok hx hw) hc2

theorem stackOk_no_cycle {g : ExecutionGraph} :
    ∀ {st : List String}, stackOk g st → st.Nodup →
      ∀ {u}, u ∈ st → ¬ reachesPlus g u u := by
  intro st
  induction st with
  | nil =>
    intro _ _ u hu
    cases hu
  | cons w rest ih =>
    intro hok hnd u hu hcyc
    obtain ⟨hsucc, hok2⟩ := hok
    rw [List.nodup_cons] at hnd
    rcases List.mem_cons.mp hu with h | h
    · subst h
      obtain ⟨x, l, hx, hc⟩ := hcyc
      have hxr : x ∈ rest := hsucc x hx
      have hur : u ∈ rest := stackOk_reachesStar_mem hok2 hxr ⟨l, hc⟩
      exact hnd.1 hur
    · exact ih hok2 hnd.2 h hcyc

theorem stackOk_indexOf_lt {g : ExecutionGraph} :
    ∀ {st : List String}, stackOk g st → st.Nodup →
      ∀ {u v}, u ∈ st → v ∈ g.succs u → st.indexOf u < st.indexOf v := by
  intro st
  induction st with
  | nil =>
    intro _ _ u v hu
    cases hu
  | cons w rest ih =>
    intro hok hnd u v hu hv
    obtain ⟨hsucc, hok2⟩ := hok
    rw [List.nodup_cons] at hnd
    rcases List.mem_cons.mp hu with h | h
    · subst h
      have hvr : v ∈ rest := hsucc v hv
      have hvw : u ≠ v := fun he => hnd.1 (he ▸ hvr)
      rw [List.indexOf_cons_self, List.indexOf_cons_ne _ hvw]
      omega
    · have huw : w ≠ u := fun he => hnd.1 (he ▸ h)
      have hvr : v ∈ rest := stackOk_mem_succs hok2 h hv
      have hvw : w ≠ v := fun he => hnd.1 (he ▸ hvr)
      rw [List.indexOf_cons_ne _ huw, List.indexOf_cons_ne _ hvw]
      have := ih hok2 hnd.2 h hv
      omega

/-! ## The cycle-detection DFS -/

theorem hasCycleDFS_vis_mono (g : ExecutionGraph) :
    ∀ fuel ws vis grey, vis ⊆ (g.hasCycleDFS fuel ws vis grey).2 := by
  intro fuel
  induction fuel using Nat.strong_induction_on with
  | _ fuel IHf =>
    intro ws
    induction ws with
    | nil =>
      intro vis grey
      simp [ExecutionGraph.hasCycleDFS]
    | cons v rest IHw =>
      intro vis grey
      unfold ExecutionGraph.hasCycleDFS
      by_cases hv : v ∈ vis
      · by_cases hg : v ∈ grey
        · simp [hv, hg]
        · simpa [hv, hg] using IHw vis grey
      · cases fuel with
        | zero => simp [hv]
        | succ f =>
          rcases hrec : g.hasCycleDFS f (g.succs v) (v :: vis) (v :: grey)
            with ⟨b, vis2⟩
          have h1 : vis ⊆ vis2 := by
            have h0 := IHf f (Nat.lt_succ_self f) (g.succs v) (v :: vis) (v :: grey)
            rw [hrec] at h0
            exact fun x hx => h0 (List.mem_cons_of_mem _ hx)
          cases b with
          | true =>
            simp only [if_neg hv, hrec]
            exact h1
          | false =>
            simp only [if_neg hv, hrec]
            exact fun x hx => IHw vis2 grey (h1 hx)

/-- If the cycle DFS reports no cycle, no worklist node can be on the
recursion stack: a grey worklist node is visited, and examining it
returns the cycle flag. -/
theorem hasCycleDFS_false_grey (g : ExecutionGraph) :
    ∀ ws fuel vis grey,
      (g.hasCycleDFS fuel ws vis grey).1 = false → grey ⊆ vis →
      ∀ w ∈ ws, w ∉ grey := by
  intro ws
  induction ws with
  | nil =>
    intro fuel vis grey _ _ w hw
    cases hw
  | cons v rest ih =>
    intro fuel vis grey hfalse hgv w hw
    unfold ExecutionGraph.hasCycleDFS at hfalse
    by_cases hv : v ∈ vis
    · by_cases hg : v ∈ grey
      · rw [if_pos hv, if_pos hg] at hfalse
        exact Bool.noConfusion hfalse
      · rw [if_pos hv, if_neg hg] at hfalse
        rcases List.mem_cons.mp hw with h | h
        · subst h
          exact hg
        · exact ih fuel vis grey hfalse hgv w h
    · rw [if_neg hv] at hfalse
      rcases List.mem_cons.mp hw with h | h
      · subst h
        exact fun hwg => hv (hgv hwg)
      · cases fuel with
        | zero => exact Bool.noConfusion hfalse
        | succ f =>
          rcases hrec : g.hasCycleDFS f (g.succs v) (v :: vis) (v :: grey)
            with ⟨b, vis2⟩
          simp only [hrec] at hfalse
          cases b with
          | true => exact Bool.noConfusion hfalse
          | false =>
            have hgv2 : grey ⊆ vis2 := by
              have hm := hasCycleDFS_vis_mono g f (g.succs v) (v :: vis) (v :: grey)
              rw [hrec] at hm
              exact fun x hx => hm (List.mem_cons_of_mem _ (hgv hx))
            exact ih (f + 1) vis2 grey hfalse hgv2 w h

/-- Main invariant of the cycle DFS on a no-cycle return: the visited set
stays duplicate-free and splits (as a multiset) into the recursion stack
`grey` and a finished part `st2` whose stack order satisfies `stackOk`;
every worklist node ends up visited, and visited nodes are graph
nodes. -/
theorem hasCycleDFS_false_spec (g : ExecutionGraph) (hwf : g.wellFormed = true) :
    ∀ fuel ws vis grey st,
      vis.Nodup → vis.Perm (grey ++ st) → stackOk g st →
      (∀ w ∈ ws, w ∈ g.keys) → (∀ x ∈ vis, x ∈ g.keys) →
      (g.hasCycleDFS fuel ws vis grey).1 = false →
      ∃ st2,
        (g.hasCycleDFS fuel ws vis grey).2.Nodup ∧
        (g.hasCycleDFS fuel ws vis grey).2.Perm (grey ++ st2) ∧
        stackOk g st2 ∧
        (∀ w ∈ ws, w ∈ (g.hasCycleDFS fuel ws vis grey).2) ∧
        (∀ x ∈ (g.hasCycleDFS fuel ws vis grey).2, x ∈ g.keys) := by
  intro fuel
  induction fuel using Nat.strong_induction_on with
  | _ fuel IHf =>
    intro ws
    induction ws with
    | nil =>
      intro vis grey st hnd hperm hok hws hvk _
      unfold ExecutionGraph.hasCycleDFS
      exact ⟨st, hnd, hperm, hok, fun w hw => absurd hw (List.not_mem_nil w), hvk⟩
    | cons v rest IHw =>
      intro vis grey st hnd hperm hok hws hvk hfalse
      unfold ExecutionGraph.hasCycleDFS at hfalse ⊢
      by_cases hv : v ∈ vis
      · by_cases hg : v ∈ grey
        · rw [if_pos hv, if_pos hg] at hfalse
          exact Bool.noConfusion hfalse
        · rw [if_pos hv, if_neg hg] at hfalse
          rw [if_pos hv, if_neg hg]
          obtain ⟨st2, h1, h2, h3, h4, h5⟩ := IHw vis grey st hnd hperm hok
            (fun w hw => hws w (List.mem_cons_of_mem _ hw)) hvk hfalse
          refine ⟨st2, h1, h2, h3, ?_, h5⟩
          intro w hw
          rcases List.mem_cons.mp hw with h | h
          · subst h
            exact hasCycleDFS_vis_mono g fuel rest vis grey hv
          · exact h4 w h
      · rw [if_neg hv] at hfalse
        rw [if_neg hv]
        cases fuel with
        | zero => exact Bool.noConfusion hfalse
        | succ f =>
          rcases hrec : g.hasCycleDFS f (g.succs v) (v :: vis) (v :: grey)
            with ⟨b, vis2⟩
          simp only [hrec] at hfalse ⊢
          cases b with
          | true => exact Bool.noConfusion hfalse
          | false =>
            have hvkeys : v ∈ g.keys := hws v (List.mem_cons_self v rest)
            have hinner := IHf f (Nat.lt_succ_self f) (g.succs v) (v :: vis)
              (v :: grey) st (List.nodup_cons.mpr ⟨hv, hnd⟩)
              (hperm.cons v) hok
              (fun w hw => wellFormed_succs_mem hwf v w hw)
              (fun x hx => by
                rcases List.mem_cons.mp hx with h | h
                · subst h
                  exact hvkeys
                · exact hvk x h)
              (by rw [hrec])
            rw [hrec] at hinner
            obtain ⟨st2, h1, h2, h3, h4, h5⟩ := hinner
            have hmono : (v :: vis) ⊆ vis2 := by
              have hm := hasCycleDFS_vis_mono g f (g.succs v) (v :: vis) (v :: grey)
              rw [hrec] at hm
              exact hm
            have hgreyvis : (v :: grey) ⊆ (v :: vis) := by
              intro x hx
              rcases List.mem_cons.mp hx with h | h
              · exact List.mem_cons.mpr (Or.inl h)
              · exact List.mem_cons_of_mem _
                  (hperm.mem_iff.mpr (List.mem_append.mpr (Or.inl h)))
            have hnogrey : ∀ w ∈ g.succs v, w ∉ (v :: grey) :=
              hasCycleDFS_false_grey g (g.succs v) f (v :: vis) (v :: grey)
                (by rw [hrec]) hgreyvis
            have hpush : ∀ w ∈ g.succs v, w ∈ st2 := by
              intro w hw
              have hw2 : w ∈ vis2 := h4 w hw
              have := h2.mem_iff.mp hw2
              rcases List.mem_append.mp this with h | h
              · exact absurd h (hnogrey w hw)
              · exact h
            have hperm2 : vis2.Perm (grey ++ (v :: st2)) := by
              refine h2.trans ?_
              exact (List.perm_middle).symm
            have hok2 : stackOk g (v :: st2) := ⟨hpush, h3⟩
            obtain ⟨st3, k1, k2, k3, k4, k5⟩ := IHw vis2 grey (v :: st2)
              h1 hperm2 hok2
              (fun w hw => hws w (List.mem_cons_of_mem _ hw)) h5 hfalse
            refine ⟨st3, k1, k2, k3, ?_, k5⟩
            intro w hw
            rcases List.mem_cons.mp hw with h | h
            · subst h
              have hm2 := hasCycleDFS_vis_mono g (f + 1) rest vis2 grey
              exact hm2 (hmono (List.mem_cons_self w vis))
            · exact k4 w h

/-- The cycle sweep of Validate (roots tried in turn against a shared
visited set): a no-cycle outcome yields one duplicate-free visited set,
a permutation of a stackOk finish order, containing every root. -/
theorem cycleSweep_false_spec (g : ExecutionGraph) (hwf : g.wellFormed = true) :
    ∀ roots vis st,
      vis.Nodup → vis.Perm st → stackOk g st →
      (∀ r ∈ roots, r ∈ g.keys) → (∀ x ∈ vis, x ∈ g.keys) →
      g.cycleSweep roots vis = false →
      ∃ (vis2 st2 : List String), vis2.Nodup ∧ vis2.Perm st2 ∧ stackOk g st2 ∧
        (∀ r ∈ roots, r ∈ vis2) ∧ (∀ x ∈ vis, x ∈ vis2) ∧
        (∀ x ∈ vis2, x ∈ g.keys) := by
  intro roots
  induction roots with
  | nil =>
    intro vis st hnd hperm hok _ hvk _
    exact ⟨vis, st, hnd, hperm, hok,
      fun r hr => absurd hr (List.not_mem_nil r), fun x hx => hx, hvk⟩
  | cons k rest ih =>
    intro vis st hnd hperm hok hroots hvk hfalse
    unfold ExecutionGraph.cycleSweep at hfalse
    rcases hrec : g.hasCycleDFS g.Nodes.length [k] vis [] with ⟨b, visk⟩
    simp only [hrec] at hfalse
    cases b with
    | true => exact Bool.noConfusion hfalse
    | false =>
      have hkmem : ∀ w ∈ [k], w ∈ g.keys := by
        intro w hw
        rcases List.mem_cons.mp hw with h | h
        · exact h ▸ hroots k (List.mem_cons_self k rest)
        · cases h
      have hspec := hasCycleDFS_false_spec g hwf g.Nodes.length [k] vis [] st
        hnd hperm hok hkmem hvk (by rw [hrec])
      rw [hrec] at hspec
      obtain ⟨st2, s1, s2, s3, s4, s5⟩ := hspec
      have hmonok : vis ⊆ visk := by
        have hm := hasCycleDFS_vis_mono g g.Nodes.length [k] vis []
        rw [hrec] at hm
        exact hm
      obtain ⟨vis3, st3, t1, t2, t3, t4, t5, t6⟩ := ih visk st2 s1 s2 s3
        (fun r hr => hroots r (List.mem_cons_of_mem _ hr)) s5 hfalse
      refine ⟨vis3, st3, t1, t2, t3, ?_, fun x hx => t5 x (hmonok hx), t6⟩
      intro r hr
      rcases List.mem_cons.mp hr with h | h
      · exact h ▸ t5 k (s4 k (List.mem_cons_self k []))
      · exact t4 r h

/-- A graph whose Validate cycle sweep reports no cycle is acyclic. -/
theorem cycleSweep_acyclic (g : ExecutionGraph) (hwf : g.wellFormed = true)
    (hsweep : g.cycleSweep g.keys [] = false) : acyclicG g := by
  obtain ⟨vis2, st2, hnd, hperm, hok, hroots, _, _⟩ :=
    cycleSweep_false_spec g hwf g.keys [] [] List.nodup_nil (List.Perm.refl [])
      trivial (fun r hr => hr) (fun x hx => absurd hx (List.not_mem_nil x)) hsweep
  intro u hcyc
  by_cases hu : u ∈ g.keys
  · have hu2 : u ∈ st2 := hperm.mem_iff.mp (hroots u hu)
    exact stackOk_no_cycle hok (hperm.nodup hnd) hu2 hcyc
  · obtain ⟨w, l, hw, _⟩ := hcyc
    rw [succs_eq_nil_of_not_mem hu] at hw
    cases hw

/-! ## The reachability DFS -/

theorem reachesStar_snoc {g : ExecutionGraph} {u v w : String}
    (h : reachesStar g u v) (hw : w ∈ g.succs v) : reachesStar g u w := by
  obtain ⟨l, hc⟩ := h
  exact ⟨l ++ [w], chain_append hc hw⟩

theorem reachDFS_acc_sub (g : ExecutionGraph) :
    ∀ fuel ws acc, acc ⊆ g.reachDFS fuel ws acc := by
  intro fuel
  induction fuel using Nat.strong_induction_on with
  | _ fuel IHf =>
    intro ws
    induction ws with
    | nil =>
      intro acc
      unfold ExecutionGraph.reachDFS
      exact fun x hx => hx
    | cons v rest IHw =>
      intro acc
      unfold ExecutionGraph.reachDFS
      by_cases hv : v ∈ acc
      · rw [if_pos hv]
        exact IHw acc
      · rw [if_neg hv]
        cases fuel with
        | zero => exact IHw acc
        | succ f =>
          intro x hx
          exact IHw _ (IHf f (Nat.lt_succ_self f) (g.succs v) (v :: acc)
            (List.mem_cons_of_mem _ hx))

theorem reachDFS_sound (g : ExecutionGraph) (entry : String) :
    ∀ fuel ws acc,
      (∀ w ∈ ws, reachesStar g entry w) →
      (∀ a ∈ acc, reachesStar g entry a) →
      ∀ x ∈ g.reachDFS fuel ws acc, reachesStar g entry x := by
  intro fuel
  induction fuel using Nat.strong_induction_on with
  | _ fuel IHf =>
    intro ws
    induction ws with
    | nil =>
      intro acc _ hacc
      unfold ExecutionGraph.reachDFS
      exact hacc
    | cons v rest IHw =>
      intro acc hws hacc
      unfold ExecutionGraph.reachDFS
      have hrest : ∀ w ∈ rest, reachesStar g entry w :=
        fun w hw => hws w (List.mem_cons_of_mem _ hw)
      have hv0 : reachesStar g entry v := hws v (List.mem_cons_self v rest)
      by_cases hv : v ∈ acc
      · rw [if_pos hv]
        exact IHw acc hrest hacc
      · rw [if_neg hv]
        cases fuel with
        | zero => exact IHw acc hrest hacc
        | succ f =>
          refine IHw _ hrest ?_
          refine IHf f (Nat.lt_succ_self f) (g.succs v) (v :: acc)
            (fun w hw => reachesStar_snoc hv0 hw) ?_
          intro a ha
          rcases List.mem_cons.mp ha with h | h
          · exact h ▸ hv0
          · exact hacc a h

theorem reachDFS_nodup (g : ExecutionGraph) :
    ∀ fuel ws acc, acc.Nodup → (g.reachDFS fuel ws acc).Nodup := by
  intro fuel
  induction fuel using Nat.strong_induction_on with
  | _ fuel IHf =>
    intro ws
    induction ws with
    | nil =>
      intro acc hnd
      unfold ExecutionGraph.reachDFS
      exact hnd
    | cons v rest IHw =>
      intro acc hnd
      unfold ExecutionGraph.reachDFS
      by_cases hv : v ∈ acc
      · rw [if_pos hv]
        exact IHw acc hnd
      · rw [if_neg hv]
        cases fuel with
        | zero => exact IHw acc hnd
        | succ f =>
          exact IHw _ (IHf f (Nat.lt_succ_self f) (g.succs v) (v :: acc)
            (List.nodup_cons.mpr ⟨hv, hnd⟩))

theorem reachDFS_subset_keys (g : ExecutionGraph) (hwf : g.wellFormed = true) :
    ∀ fuel ws acc,
      (∀ w ∈ ws, w ∈ g.keys) → (∀ a ∈ acc, a ∈ g.keys) →
      ∀ x ∈ g.reachDFS fuel ws acc, x ∈ g.keys := by
  intro fuel
  induction fuel using Nat.strong_induction_on with
  | _ fuel IHf =>
    intro ws
    induction ws with
    | nil =>
      intro acc _ hacc
      unfold ExecutionGraph.reachDFS
      exact hacc
    | cons v rest IHw =>
      intro acc hws hacc
      unfold ExecutionGraph.reachDFS
      have hrest : ∀ w ∈ rest, w ∈ g.keys :=
        fun w hw => hws w (List.mem_cons_of_mem _ hw)
      by_cases hv : v ∈ acc
      · rw [if_pos hv]
        exact IHw acc hrest hacc
      · rw [if_neg hv]
        cases fuel with
        | zero => exact IHw acc hrest hacc
        | succ f =>
          refine IHw _ hrest ?_
          refine IHf f (Nat.lt_succ_self f) (g.succs v) (v :: acc)
            (fun w hw => wellFormed_succs_mem hwf v w hw) ?_
          intro a ha
          rcases List.mem_cons.mp ha with h | h
          · exact h ▸ hws v (List.mem_cons_self v rest)
          · exact hacc a h

/-! ## The topological-order DFS -/

/-- Main invariant of the ordering DFS on an acyclic well-formed graph:
with enough fuel (`|keys| - |grey|` levels suffice, as each level
descends into an unvisited node and greys it), the visited set remains
duplicate-free and splits into the recursion stack `grey` plus the
output stack, the output stack keeps every node strictly before its
successors (`stackOk`), every worklist node gets visited, visited nodes
are preserved, and all visited nodes are graph nodes. The `grey`
ancestors reach every worklist node (`hQ`), which together with
acyclicity rules out a successor still being grey when a node is
finished. -/
theorem topoVisit_spec (g : ExecutionGraph) (hwf : g.wellFormed = true)
    (hacyc : acyclicG g) :
    ∀ fuel ws vis grey st,
      vis.Nodup → vis.Perm (grey ++ st) → stackOk g st →
      (∀ w ∈ ws, w ∈ g.keys) → (∀ x ∈ vis, x ∈ g.keys) →
      (∀ y ∈ grey, ∀ w ∈ ws, reachesPlus g y w) →
      g.keys.length ≤ fuel + grey.length →
      (g.topoVisit fuel ws (vis, st)).1.Nodup ∧
      (g.topoVisit fuel ws (vis, st)).1.Perm
        (grey ++ (g.topoVisit fuel ws (vis, st)).2) ∧
      stackOk g (g.topoVisit fuel ws (vis, st)).2 ∧
      (∀ w ∈ ws, w ∈ (g.topoVisit fuel ws (vis, st)).1) ∧
      (∀ x ∈ vis, x ∈ (g.topoVisit fuel ws (vis, st)).1) ∧
      (∀ x ∈ (g.topoVisit fuel ws (vis, st)).1, x ∈ g.keys) := by
  intro fuel
  induction fuel using Nat.strong_induction_on with
  | _ fuel IHf =>
    intro ws
    induction ws with
    | nil =>
      intro vis grey st hnd hperm hok _ hvk _ _
      unfold ExecutionGraph.topoVisit
      exact ⟨hnd, hperm, hok, fun w hw => absurd hw (List.not_mem_nil w),
        fun x hx => hx, hvk⟩
    | cons v rest IHw =>
      intro vis grey st hnd hperm hok hws hvk hQ hfuel
      unfold ExecutionGraph.topoVisit
      have hrestkeys : ∀ w ∈ rest, w ∈ g.keys :=
        fun w hw => hws w (List.mem_cons_of_mem _ hw)
      have hQrest : ∀ y ∈ grey, ∀ w ∈ rest, reachesPlus g y w :=
        fun y hy w hw => hQ y hy w (List.mem_cons_of_mem _ hw)
      by_cases hv : v ∈ vis
      · rw [if_pos hv]
        obtain ⟨h1, h2, h3, h4, h5, h6⟩ := IHw vis grey st hnd hperm hok
          hrestkeys hvk hQrest hfuel
        refine ⟨h1, h2, h3, ?_, h5, h6⟩
        intro w hw
        rcases List.mem_cons.mp hw with h | h
        · exact h ▸ h5 v hv
        · exact h4 w h
      · rw [if_neg hv]
        cases fuel with
        | zero =>
          exfalso
          have hgreynd : grey.Nodup := (hperm.nodup hnd).of_append_left
          have hgreysub : grey ⊆ g.keys := fun x hx =>
            hvk x (hperm.mem_iff.mpr (List.mem_append.mpr (Or.inl hx)))
          have hsp := (hgreynd.subperm hgreysub).perm_of_length_le
            (by simpa using hfuel)
          have hvg : v ∈ grey := hsp.symm.mem_iff.mp (hws v (List.mem_cons_self v rest))
          exact hv (hperm.mem_iff.mpr (List.mem_append.mpr (Or.inl hvg)))
        | succ f =>
          rcases hrec : g.topoVisit f (g.succs v) (v :: vis, st) with ⟨vis2, st2⟩
          simp only [hrec]
          have hvkeys : v ∈ g.keys := hws v (List.mem_cons_self v rest)
          have hinner := IHf f (Nat.lt_succ_self f) (g.succs v) (v :: vis)
            (v :: grey) st (List.nodup_cons.mpr ⟨hv, hnd⟩) (hperm.cons v) hok
            (fun w hw => wellFormed_succs_mem hwf v w hw)
            (fun x hx => by
              rcases List.mem_cons.mp hx with h | h
              · exact h ▸ hvkeys
              · exact hvk x h)
            (by
              intro y hy w hw
              rcases List.mem_cons.mp hy with h | h
              · exact h ▸ edge_reachesPlus hw
              · exact reachesPlus_snoc (hQ y h v (List.mem_cons_self v rest)) hw)
            (by simp only [List.length_cons]; omega)
          rw [hrec] at hinner
          obtain ⟨h1, h2, h3, h4, h5, h6⟩ := hinner
          have hpush : ∀ w ∈ g.succs v, w ∈ st2 := by
            intro w hw
            have hw2 : w ∈ vis2 := h4 w hw
            rcases List.mem_append.mp (h2.mem_iff.mp hw2) with h | h
            · exfalso
              rcases List.mem_cons.mp h with h0 | h0
              · exact hacyc v (edge_reachesPlus (h0 ▸ hw))
              · exact hacyc w (reachesPlus_snoc
                  (hQ w h0 v (List.mem_cons_self v rest)) hw)
            · exact h
          have hperm2 : vis2.Perm (grey ++ (v :: st2)) :=
            h2.trans List.perm_middle.symm
          have hok2 : stackOk g (v :: st2) := ⟨hpush, h3⟩
          obtain ⟨k1, k2, k3, k4, k5, k6⟩ := IHw vis2 grey (v :: st2) h1 hperm2
            hok2 hrestkeys h6 hQrest hfuel
          refine ⟨k1, k2, k3, ?_, ?_, k6⟩
          · intro w hw
            rcases List.mem_cons.mp hw with h | h
            · exact h ▸ k5 v (h5 v (List.mem_cons_self v vis))
            · exact k4 w h
          · intro x hx
            exact k5 x (h5 x (List.mem_cons_of_mem _ hx))

/-! ## Validate and the topological-order theorem -/

theorem validate_unpack {g : ExecutionGraph} (hval : g.Validate = true) :
    (g.Nodes.lookup g.EntryPoint).isSome = true ∧
    g.cycleSweep g.keys [] = false ∧
    (g.reachDFS g.Nodes.length [g.EntryPoint] []).length = g.Nodes.length := by
  unfold ExecutionGraph.Validate at hval
  simp only [Bool.and_eq_true, Bool.not_eq_true'] at hval
  exact ⟨hval.1.1.2, hval.1.2, by simpa using hval.2⟩

/-- A validated graph has every node reachable from the entry point: the
reachability DFS only collects reachable nodes without duplicates, so
its count equalling the node count forces it to cover all keys. -/
theorem validate_keys_reachable (g : ExecutionGraph) (hwf : g.wellFormed = true)
    (hval : g.Validate = true) :
    ∀ k ∈ g.keys, reachesStar g g.EntryPoint k := by
  obtain ⟨hsome, _, hreach⟩ := validate_unpack hval
  have hentry : g.EntryPoint ∈ g.keys := (lookup_isSome_iff_mem_fst _ _).mp hsome
  have hentrysub : ∀ w ∈ [g.EntryPoint], w ∈ g.keys := by
    intro w hw
    rcases List.mem_cons.mp hw with h | h
    · exact h ▸ hentry
    · cases h
  have hnd : (g.reachDFS g.Nodes.length [g.EntryPoint] []).Nodup :=
    reachDFS_nodup g g.Nodes.length [g.EntryPoint] [] List.nodup_nil
  have hsub : ∀ x ∈ g.reachDFS g.Nodes.length [g.EntryPoint] [], x ∈ g.keys :=
    reachDFS_subset_keys g hwf g.Nodes.length [g.EntryPoint] [] hentrysub
      (fun a ha => absurd ha (List.not_mem_nil a))
  have hlenk : g.keys.length = g.Nodes.length := List.length_map _ _
  have hperm := (hnd.subperm hsub).perm_of_length_le (by omega)
  intro k hk
  have hkmem : k ∈ g.reachDFS g.Nodes.length [g.EntryPoint] [] :=
    hperm.symm.mem_iff.mp hk
  refine reachDFS_sound g g.EntryPoint g.Nodes.length [g.EntryPoint] [] ?_
    (fun a ha => absurd ha (List.not_mem_nil a)) k hkmem
  intro w hw
  rcases List.mem_cons.mp hw with h | h
  · exact h ▸ ⟨[], rfl⟩
  · cases h

/-- C1: for every workflow whose Build succeeds (and is well-formed, as
every graph constructed through AddNode/AddEdge is), GetTopologicalOrder
returns a list holding every node of the graph exactly once, with the
index of every edge's source strictly below the index of its target. -/
theorem C1_topological_order_correct (wf : Workflow)
    (hwf : wf.graph.wellFormed = true)
    (hbuild : WorkflowBuilder.BuildOk wf = true) :
    ∃ order : List String,
      wf.graph.GetTopologicalOrder = some order ∧
      order.Nodup ∧
      (∀ k, k ∈ order ↔ k ∈ wf.graph.keys) ∧
      (∀ u v, u ∈ wf.graph.keys → v ∈ wf.graph.succs u →
        order.indexOf u < order.indexOf v) := by
  have hval : wf.graph.Validate = true := by
    unfold WorkflowBuilder.BuildOk at hbuild
    rw [Bool.and_eq_true] at hbuild
    exact hbuild.1
  obtain ⟨hsome, hsweep, _⟩ := validate_unpack hval
  have hacyc := cycleSweep_acyclic wf.graph hwf hsweep
  have hentry : wf.graph.EntryPoint ∈ wf.graph.keys :=
    (lookup_isSome_iff_mem_fst _ _).mp hsome
  have hreachable := validate_keys_reachable wf.graph hwf hval
  obtain ⟨visF, stF, hts⟩ :
      ∃ visF stF, wf.graph.topoVisit wf.graph.Nodes.length
        [wf.graph.EntryPoint] ([], []) = (visF, stF) := ⟨_, _, rfl⟩
  have hspec := topoVisit_spec wf.graph hwf hacyc wf.graph.Nodes.length
    [wf.graph.EntryPoint] [] [] [] List.nodup_nil (List.Perm.refl _) trivial
    (by
      intro w hw
      rcases List.mem_cons.mp hw with h | h
      · exact h ▸ hentry
      · cases h)
    (fun x hx => absurd hx (List.not_mem_nil x))
    (fun y hy => absurd hy (List.not_mem_nil y))
    (by
      have hlk : wf.graph.keys.length = wf.graph.Nodes.length :=
        List.length_map _ _
      omega)
  rw [hts] at hspec
  obtain ⟨hndF, hpermF, hokF, hwsF, _, hkF⟩ := hspec
  have hpermF2 : visF.Perm stF := hpermF
  have hstnd : stF.Nodup := hpermF2.nodup hndF
  have hentryF : wf.graph.EntryPoint ∈ stF :=
    hpermF2.mem_iff.mp (hwsF wf.graph.EntryPoint (List.mem_cons_self _ _))
  have hmemkeys : ∀ k, k ∈ stF ↔ k ∈ wf.graph.keys := by
    intro k
    constructor
    · intro hk
      exact hkF k (hpermF2.mem_iff.mpr hk)
    · intro hk
      exact stackOk_reachesStar_mem hokF hentryF (hreachable k hk)
  refine ⟨stF, ?_, hstnd, hmemkeys, ?_⟩
  · unfold ExecutionGraph.GetTopologicalOrder
    rw [hval, if_pos rfl, hts]
  · intro u v hu hv
    exact stackOk_indexOf_lt hokF hstnd ((hmemkeys u).mpr hu) hv

/-! Concrete evaluation of the DFS routines on exampleGraph. The
recursions are well-founded, so the calls are evaluated one unfolding at
a time, rewriting the inner recursive calls with the previous steps. -/

theorem hasCycleDFS_nil (g : ExecutionGraph) (fuel vis grey) :
    g.hasCycleDFS fuel [] vis grey = (false, vis) := by
  unfold ExecutionGraph.hasCycleDFS
  rfl

theorem reachDFS_nil (g : ExecutionGraph) (fuel acc) :
    g.reachDFS fuel [] acc = acc := by
  unfold ExecutionGraph.reachDFS
  rfl

theorem exampleGraph_succs_a : exampleGraph.succs "a" = ["b"] := by decide

theorem exampleGraph_succs_b : exampleGraph.succs "b" = ["c"] := by decide

theorem exampleGraph_succs_c : exampleGraph.succs "c" = [] := by decide

theorem exampleGraph_len : exampleGraph.Nodes.length = 3 := rfl

theorem exampleGraph_keys : exampleGraph.keys = ["a", "b", "c"] := rfl

theorem exampleGraph_dfs_c :
    exampleGraph.hasCycleDFS 1 ["c"] ["b", "a"] ["b", "a"] =
      (false, ["c", "b", "a"]) := by
  unfold ExecutionGraph.hasCycleDFS
  simp only [List.mem_cons, List.not_mem_nil, or_false, String.reduceEq, if_false]
  rw [exampleGraph_succs_c, hasCycleDFS_nil]
  simp only []
  rw [hasCycleDFS_nil]

theorem exampleGraph_dfs_b :
    exampleGraph.hasCycleDFS 2 ["b"] ["a"] ["a"] = (false, ["c", "b", "a"]) := by
  unfold ExecutionGraph.hasCycleDFS
  simp only [List.mem_cons, List.not_mem_nil, or_false, String.reduceEq, if_false]
  rw [exampleGraph_succs_b, exampleGraph_dfs_c]
  simp only []
  rw [hasCycleDFS_nil]

theorem exampleGraph_dfs_a :
    exampleGraph.hasCycleDFS 3 ["a"] [] [] = (false, ["c", "b", "a"]) := by
  unfold ExecutionGraph.hasCycleDFS
  simp only [List.not_mem_nil, if_false]
  rw [exampleGraph_succs_a, exampleGraph_dfs_b]
  simp only []
  rw [hasCycleDFS_nil]

theorem exampleGraph_dfs_b_vis :
    exampleGraph.hasCycleDFS 3 ["b"] ["c", "b", "a"] [] =
      (false, ["c", "b", "a"]) := by
  unfold ExecutionGraph.hasCycleDFS
  simp only [List.mem_cons, List.not_mem_nil, String.reduceEq, or_false, or_true,
    true_or, false_or, if_true, if_false]
  rw [hasCycleDFS_nil]

theorem exampleGraph_dfs_c_vis :
    exampleGraph.hasCycleDFS 3 ["c"] ["c", "b", "a"] [] =
      (false, ["c", "b", "a"]) := by
  unfold ExecutionGraph.hasCycleDFS
  simp only [List.mem_cons, List.not_mem_nil, String.reduceEq, or_false, or_true,
    true_or, false_or, if_true, if_false]
  rw [hasCycleDFS_nil]

theorem exampleGraph_sweep :
    exampleGraph.cycleSweep ["a", "b", "c"] [] = false := by
  unfold ExecutionGraph.cycleSweep
  rw [exampleGraph_len, exampleGraph_dfs_a]
  simp only []
  unfold ExecutionGraph.cycleSweep
  rw [exampleGraph_len, exampleGraph_dfs_b_vis]
  simp only []
  unfold ExecutionGraph.cycleSweep
  rw [exampleGraph_len, exampleGraph_dfs_c_vis]
  simp only []
  unfold ExecutionGraph.cycleSweep
  rfl

theorem exampleGraph_reach_c :
    exampleGraph.reachDFS 1 ["c"] ["b", "a"] = ["c", "b", "a"] := by
  unfold ExecutionGraph.reachDFS
  simp only [List.mem_cons, List.not_mem_nil, or_false, String.reduceEq, if_false]
  rw [exampleGraph_succs_c, reachDFS_nil, reachDFS_nil]

theorem exampleGraph_reach_b :
    exampleGraph.reachDFS 2 ["b"] ["a"] = ["c", "b", "a"] := by
  unfold ExecutionGraph.reachDFS
  simp only [List.mem_cons, List.not_mem_nil, or_false, String.reduceEq, if_false]
  rw [exampleGraph_succs_b, exampleGraph_reach_c, reachDFS_nil]

theorem exampleGraph_reach_a :
    exampleGraph.reachDFS 3 ["a"] [] = ["c", "b", "a"] := by
  unfold ExecutionGraph.reachDFS
  simp only [List.not_mem_nil, if_false]
  rw [exampleGraph_succs_a, exampleGraph_reach_b, reachDFS_nil]

theorem exampleGraph_validate : exampleGraph.Validate = true := by
  have hep : exampleGraph.EntryPoint = "a" := rfl
  unfold ExecutionGraph.Validate
  rw [hep, exampleGraph_keys, exampleGraph_len, exampleGraph_sweep,
    exampleGraph_reach_a]
  decide

theorem exampleWorkflow_buildOk :
    WorkflowBuilder.BuildOk exampleWorkflow = true := by
  have hg : exampleWorkflow.graph = exampleGraph := rfl
  unfold WorkflowBuilder.BuildOk
  rw [hg, exampleGraph_validate]
  decide

/-- Witness: the three-node chain a -> b -> c builds successfully and its
topological order is correct. -/
theorem C1_topological_order_correct_witness :
    exampleWorkflow.graph.wellFormed = true ∧
    WorkflowBuilder.BuildOk exampleWorkflow = true ∧
    ∃ order : List String,
      exampleWorkflow.graph.GetTopologicalOrder = some order ∧
      order.Nodup ∧
      (∀ k, k ∈ order ↔ k ∈ exampleWorkflow.graph.keys) ∧
      (∀ u v, u ∈ exampleWorkflow.graph.keys →
        v ∈ exampleWorkflow.graph.succs u →
        order.indexOf u < order.indexOf v) := by
  have hwf : exampleWorkflow.graph.wellFormed = true := by decide
  have hbuild : WorkflowBuilder.BuildOk exampleWorkflow = true :=
    exampleWorkflow_buildOk
  exact ⟨hwf, hbuild, C1_topological_order_correct exampleWorkflow hwf hbuild⟩

end Gorkflow
